import Mathlib

/-!
# A verification model of the treepace tree-transformation engine

This file gives a shallow embedding of the treepace core: the in-memory node
store (`nodes.py`), subtrees and matches (`trees.py`), node relations
(`relations.py`), the searching virtual machine (`search.py` together with the
instruction set of `instructions.py`), the pattern/replacement compiler
(`compiler.py`), the build machine (`build.py`) and the replacement strategies
(`replace.py`).

Python objects live in an explicit heap: a node is identified by its index in a
list of records, each record holding the node value, the parent back-reference
and the ordered child list.  Node identity (Python `is` / default `==` on
`Node`) is identity of heap indices.  Node values are modelled as strings
(the parenthesized-text trees used throughout treepace have string values).

Recursive traversals of the heap take explicit fuel; every traversal below is
invoked with fuel `h.length + 1`, which is sufficient for any well-formed
(acyclic, parent-coherent) heap, since a child path can visit each node at
most once.
-/

namespace Treepace

/-- A heap record for one `Node` object (`nodes.py`): a value, the parent
back-reference and the ordered list of child node ids. -/
structure PNode where
  value : String
  parent : Option Nat
  children : List Nat
deriving Repr, DecidableEq

/-- The object heap: node ids are list indices. -/
abbrev Heap := List PNode

/-- Look a node up in the heap. -/
def lookupN (h : Heap) (i : Nat) : Option PNode := h.get? i

/-- The value of node `i` (empty string for a dangling id). -/
def valVal (h : Heap) (i : Nat) : String :=
  match lookupN h i with
  | some n => n.value
  | none => ""

/-- The parent back-reference of node `i` (`Node.parent`). -/
def parentOf (h : Heap) (i : Nat) : Option Nat :=
  match lookupN h i with
  | some n => n.parent
  | none => none

/-- The ordered child list of node `i` (`Node.children`). -/
def childrenOf (h : Heap) (i : Nat) : List Nat :=
  match lookupN h i with
  | some n => n.children
  | none => []

/-- Update the record of node `i` in place. -/
def updN : Heap → Nat → (PNode → PNode) → Heap
  | [], _, _ => []
  | n :: t, 0, f => f n :: t
  | n :: t, i + 1, f => n :: updN t i f

/-- Allocate a fresh node record, returning the new heap and the new id. -/
def alloc (h : Heap) (n : PNode) : Heap × Nat := (h ++ [n], h.length)

/-- Insert at a position, clamping to the end (Python `list.insert`). -/
def insertAt : List Nat → Nat → Nat → List Nat
  | l, 0, c => c :: l
  | [], _ + 1, c => [c]
  | x :: t, i + 1, c => x :: insertAt t i c

/-- `Node.index`: the position of `c` inside the child list `l`
(first occurrence, identity comparison). -/
def idxIn (l : List Nat) (c : Nat) : Nat := l.indexOf c

/-- `Node.add_child`: re-parent `c` to `p` and append it to `p`'s child list.
Note that the child is *not* removed from the child list of any previous
parent. -/
def addChild (h : Heap) (p c : Nat) : Heap :=
  updN (updN h c (fun n => { n with parent := some p })) p
    (fun n => { n with children := n.children ++ [c] })

/-- `Node.insert_child`: re-parent `c` to `p` and insert it at `idx`. -/
def insertChild (h : Heap) (p c : Nat) (idx : Nat) : Heap :=
  updN (updN h c (fun n => { n with parent := some p })) p
    (fun n => { n with children := insertAt n.children idx c })

/-- `Node.delete_child`: clear the parent of the child at `idx` and remove it
from the child list. -/
def deleteChild (h : Heap) (p : Nat) (idx : Nat) : Heap :=
  match (childrenOf h p).get? idx with
  | none => h
  | some c =>
      updN (updN h c (fun n => { n with parent := none })) p
        (fun n => { n with children := n.children.eraseIdx idx })

/-- A pure value tree, used to state results of whole computations
(`Tree.__eq__` compares values recursively, ignoring node identity). -/
inductive PTree where
  | node (value : String) (children : List PTree)
deriving Repr

/-- Read the value tree rooted at heap node `i` (fuel-bounded recursion). -/
def heapToPTreeF (h : Heap) : Nat → Nat → PTree
  | 0, i => .node (valVal h i) []
  | fuel + 1, i => .node (valVal h i) ((childrenOf h i).map (heapToPTreeF h fuel))

/-- The value tree of the whole tree rooted at `i`, with adequate fuel. -/
def heapToPTree (h : Heap) (i : Nat) : PTree := heapToPTreeF h (h.length + 1) i

/-- `Tree.preorder`: the pre-order id sequence of the tree rooted at `i`. -/
def preoF (h : Heap) : Nat → Nat → List Nat
  | 0, _ => []
  | fuel + 1, i => i :: ((childrenOf h i).map (preoF h fuel)).flatten

/-- Member children of `i` inside a subtree node set
(`Subtree._node_children`). -/
def subChildren (h : Heap) (nodes : List Nat) (i : Nat) : List Nat :=
  (childrenOf h i).filter (fun c => c ∈ nodes)

/-- Pre-order ids of a subtree (`Subtree.preorder`). -/
def subPreoF (h : Heap) (nodes : List Nat) : Nat → Nat → List Nat
  | 0, _ => []
  | fuel + 1, i => i :: ((subChildren h nodes i).map (subPreoF h nodes fuel)).flatten

/-- `Subtree.to_tree`: shallow-copy the member part of the tree into a pure
value tree. -/
def toTreeF (h : Heap) (nodes : List Nat) : Nat → Nat → PTree
  | 0, i => .node (valVal h i) []
  | fuel + 1, i =>
      .node (valVal h i) ((subChildren h nodes i).map (toTreeF h nodes fuel))

/-- The direction markers generated by `TreeBase.traverse`. -/
inductive Marker where
  | mnode | mdown | mright | mup
deriving Repr, DecidableEq

/-- Join marker sequences of sibling subtrees with `right` markers. -/
def joinMarkers : List (List Marker) → List Marker
  | [] => []
  | m :: [] => m
  | m :: rest => m ++ .mright :: joinMarkers rest

/-- The `traverse` marker sequence of the (optionally member-filtered) tree
rooted at `i`: `node` at each node, `down`/`up` around a non-empty child
list, `right` between siblings. -/
def markersHF (h : Heap) (keep : Option (List Nat)) : Nat → Nat → List Marker
  | 0, _ => [.mnode]
  | fuel + 1, i =>
      let cs := match keep with
        | some nodes => subChildren h nodes i
        | none => childrenOf h i
      if cs.isEmpty then [.mnode]
      else .mnode :: .mdown :: joinMarkers (cs.map (markersHF h keep fuel)) ++ [.mup]

/-- `TreeBase.leaves` of the (optionally member-filtered) tree at `i`. -/
def leavesHF (h : Heap) (keep : Option (List Nat)) : Nat → Nat → List Nat
  | 0, i => [i]
  | fuel + 1, i =>
      let cs := match keep with
        | some nodes => subChildren h nodes i
        | none => childrenOf h i
      if cs.isEmpty then [i]
      else (cs.map (leavesHF h keep fuel)).flatten

/-! ## Runtime errors

The Python exceptions the engine can raise while searching, building and
replacing.  `subtreeErr` is `SubtreeError` (disconnected node / non-leaf
removal), `keyErr`/`indexErr`/`attrErr` are the builtin `KeyError`,
`IndexError` and `AttributeError`, `overlappingMatches` and
`ambiguousReplacement` are the two `ReplaceError`s, and `fuelOut` marks a
computation on which Python would not terminate (never reached on
well-formed input). -/
inductive MErr where
  | subtreeErr | keyErr | indexErr | attrErr
  | overlappingMatches | ambiguousReplacement | fuelOut
deriving Repr, DecidableEq

/-- A `Subtree` (`trees.py`): the designated root and the identity-based
member set, kept as a duplicate-free list in insertion order. -/
structure Sub where
  root : Option Nat
  nodes : List Nat
deriving Repr, DecidableEq

/-- The empty subtree (`Subtree()`). -/
def Sub.empty : Sub := { root := none, nodes := [] }

/-- Add `i` to the member set, keeping it duplicate-free. -/
def Sub.insertNode (s : Sub) (i : Nat) : List Nat :=
  if i ∈ s.nodes then s.nodes else s.nodes ++ [i]

/-- `Subtree.add_node`: the node becomes the new root if the subtree is empty
or the node is the parent of the current root; otherwise it must be connected
(its parent a member, or itself already a member), else `SubtreeError`. -/
def Sub.addNode (h : Heap) (s : Sub) (i : Nat) : Except MErr Sub :=
  match s.root with
  | none => .ok { root := some i, nodes := s.insertNode i }
  | some r =>
      if parentOf h r = some i then .ok { root := some i, nodes := s.insertNode i }
      else
        if (match parentOf h i with
            | some p => decide (p ∈ s.nodes)
            | none => false) || decide (i ∈ s.nodes)
        then .ok { s with nodes := s.insertNode i }
        else .error .subtreeErr

/-- `Subtree.remove_node`: remove a member leaf; `SubtreeError` if it still
has member children. -/
def Sub.removeNode (h : Heap) (s : Sub) (i : Nat) : Except MErr Sub :=
  if (subChildren h s.nodes i).isEmpty then
    .ok { root := if s.root = some i then none else s.root,
          nodes := s.nodes.erase i }
  else .error .subtreeErr

/-- A `Match`: the list of captured group subtrees, group 0 first. -/
abbrev MatchM := List Sub

/-- Group 0 of a match (`Match.group()`). -/
def group0 (m : MatchM) : Sub := m.getD 0 Sub.empty

/-! ## The search machine

`search.py` (virtual machine and branches) together with the search
instructions of `instructions.py`.  `Find` predicates are modelled by `Pred`:
the compiler only ever emits the always-true predicate (wildcard), a
string-equality test against a literal (`str(_) == str('lit')`), the
reference-generated equality test (`_ == ref`), or an opaque host expression,
which the machine evaluates through the pluggable evaluator `ev`. -/
inductive Pred where
  | tru
  | eqConst (s : String)
  | eqRef (s : String)
  | host (e : String)
deriving Repr, DecidableEq

/-- Evaluate a `Find` predicate on the value of the candidate node. -/
def evalPred (ev : String → String → Bool) (p : Pred) (v : String) : Bool :=
  match p with
  | .tru => true
  | .eqConst s => v == s
  | .eqRef s => v == s
  | .host e => ev e v

/-- The six node relations of `relations.py`. -/
inductive Rel where
  | child | sibling | nextSib | parent | desc | identic
deriving Repr, DecidableEq

/-- `relation.search(node)`: the candidate nodes each relation enumerates. -/
def relSearch (h : Heap) (fuelH : Nat) (r : Rel) (i : Nat) : List Nat :=
  match r with
  | .child => childrenOf h i
  | .sibling =>
      match parentOf h i with
      | some p => (childrenOf h p).filter (fun x => x ≠ i)
      | none => []
  | .nextSib =>
      match parentOf h i with
      | some p =>
          match (childrenOf h p).get? (idxIn (childrenOf h p) i + 1) with
          | some c => [c]
          | none => []
      | none => []
  | .parent =>
      match parentOf h i with
      | some p => [p]
      | none => []
  | .desc => preoF h fuelH i
  | .identic => [i]

/-- The search instruction set. -/
inductive Instr where
  | find (p : Pred)
  | setRel (r : Rel)
  | groupStart (n : Nat)
  | groupEnd (n : Nat)
  | sref (n : Nat)
deriving Repr, DecidableEq

/-- Is the instruction a back-reference? -/
def Instr.isSref : Instr → Bool
  | .sref _ => true
  | _ => false

/-- Interleave the per-sibling instruction sequences with `REL next_sib`
(the `right` direction of `traverse`). -/
def seqJoin : List (List Instr) → List Instr
  | [] => []
  | m :: [] => m
  | m :: rest => m ++ .setRel .nextSib :: seqJoin rest

/-- The instruction sequence `SearchReference.execute` prepends: walk the
captured subtree (through its `to_tree` copy) in pre-order, emitting
`Find(_ == ref)` at each node, `REL child` on descent, `REL next_sib`
between siblings and `REL parent` plus a wildcard `Find` on ascent. -/
def genRefF (h : Heap) (nodes : List Nat) : Nat → Nat → List Instr
  | 0, i => [.find (.eqRef (valVal h i))]
  | fuel + 1, i =>
      let cs := subChildren h nodes i
      if cs.isEmpty then [.find (.eqRef (valVal h i))]
      else
        .find (.eqRef (valVal h i)) :: .setRel .child ::
          (seqJoin (cs.map (genRefF h nodes fuel)) ++ [.setRel .parent, .find .tru])

/-- A `SearchBranch`: the open group numbers, the match in progress, the
context node, the current relation and the branch's own instruction queue. -/
structure Branch where
  groups : List Nat
  matchS : MatchM
  node : Nat
  rel : Rel
  instrs : List Instr
deriving Repr, DecidableEq

/-- The initial branch (`SearchMachine.__init__`): group 0 open, an empty
whole-match subtree, positioned at the search root.  The starting relation is
`Descendant` for `Tree.search` and `Identic` for `Tree.match`/`fullmatch`. -/
def initBranch (root : Nat) (instrs : List Instr) (rel : Rel) : Branch :=
  { groups := [0], matchS := [Sub.empty], node := root, rel := rel,
    instrs := instrs }

/-- Add a found node to every currently open group of the match
(`Find.execute`); an invalid group number is an `IndexError`. -/
def addToGroups (h : Heap) (i : Nat) : List Nat → MatchM → Except MErr MatchM
  | [], m => .ok m
  | g :: gs, m =>
      match m.get? g with
      | none => .error .indexErr
      | some sub =>
          match sub.addNode h i with
          | .error e => .error e
          | .ok sub2 => addToGroups h i gs (m.set g sub2)

/-- Fork one branch per matching candidate node (`Find.execute`'s loop): the
candidate is added to every open group and becomes the fork's context node,
the fork's queue being the branch's remaining instructions. -/
def forkBranches (h : Heap) (b : Branch) (rest : List Instr) :
    List Nat → Except MErr (List Branch)
  | [] => .ok []
  | i :: is =>
      match addToGroups h i b.groups b.matchS with
      | .error e => .error e
      | .ok m2 =>
          match forkBranches h b rest is with
          | .error e => .error e
          | .ok bs => .ok ({ b with matchS := m2, node := i, instrs := rest } :: bs)

/-- Execute one instruction of a branch whose queue is non-empty, returning
the branches that replace it (`Find` forks one branch per matching candidate
and the branch dies on zero candidates; the other instructions keep the
branch). -/
def stepInstr (ev : String → String → Bool) (h : Heap) (fuelH : Nat)
    (b : Branch) (ins : Instr) (rest : List Instr) : Except MErr (List Branch) :=
  match ins with
  | .find p =>
      forkBranches h b rest
        ((relSearch h fuelH b.rel b.node).filter
          (fun i => evalPred ev p (valVal h i)))
  | .setRel r => .ok [{ b with rel := r, instrs := rest }]
  | .groupStart n =>
      .ok [{ b with
              groups := if n ∈ b.groups then b.groups else b.groups ++ [n],
              matchS := b.matchS ++ [Sub.empty],
              instrs := rest }]
  | .groupEnd n =>
      if n ∈ b.groups then .ok [{ b with groups := b.groups.erase n, instrs := rest }]
      else .error .keyErr
  | .sref n =>
      match b.matchS.get? n with
      | none => .error .indexErr
      | some sub =>
          match sub.root with
          | none => .error .attrErr
          | some r =>
              .ok [{ b with instrs := genRefF h sub.nodes fuelH r ++ rest }]

/-- One branch step of a machine round: a finished branch is kept untouched,
otherwise its first instruction is popped and executed. -/
def stepBranch (ev : String → String → Bool) (h : Heap) (fuelH : Nat)
    (b : Branch) : Except MErr (List Branch) :=
  match b.instrs with
  | [] => .ok [b]
  | ins :: rest => stepInstr ev h fuelH b ins rest

/-- One round of `SearchMachine.search`: every branch is processed once. -/
def stepRound (ev : String → String → Bool) (h : Heap) (fuelH : Nat) :
    List Branch → Except MErr (List Branch)
  | [] => .ok []
  | b :: rest =>
      match stepBranch ev h fuelH b with
      | .error e => .error e
      | .ok bs1 =>
          match stepRound ev h fuelH rest with
          | .error e => .error e
          | .ok bs2 => .ok (bs1 ++ bs2)

/-- All branches have exhausted their instruction queues. -/
def allDone (bs : List Branch) : Bool := bs.all (fun b => b.instrs.isEmpty)

/-- The `while any(branch.instructions ...)` loop, with explicit round fuel. -/
def runRounds (ev : String → String → Bool) (h : Heap) (fuelH : Nat) :
    Nat → List Branch → Except MErr (List Branch)
  | 0, bs => .ok bs
  | fuel + 1, bs =>
      if allDone bs then .ok bs
      else
        match stepRound ev h fuelH bs with
        | .error e => .error e
        | .ok bs2 => runRounds ev h fuelH fuel bs2

/-- The largest child-list length in the heap. -/
def maxKids (h : Heap) : Nat := h.foldr (fun n acc => max n.children.length acc) 0

/-- A bound on the length of a reference expansion generated with the given
fuel. -/
def genBound (h : Heap) : Nat → Nat
  | 0 => 1
  | fuel + 1 => 4 + maxKids h * (1 + genBound h fuel)

/-- Instruction weight: a back-reference weighs one more than the largest
expansion it can prepend, everything else weighs 1. -/
def wInstr (h : Heap) (fuelH : Nat) : Instr → Nat
  | .sref _ => genBound h fuelH + 1
  | _ => 1

/-- The weight of an instruction queue. -/
def wList (h : Heap) (fuelH : Nat) (l : List Instr) : Nat :=
  (l.map (wInstr h fuelH)).sum

/-- `SearchMachine.search`: run rounds until every branch is done (the weight
of the compiled program bounds the number of rounds needed) and return the
match of every surviving branch. -/
def searchRun (ev : String → String → Bool) (h : Heap) (root : Nat)
    (instrs : List Instr) (rel : Rel) : Except MErr (List MatchM) :=
  let fuelH := h.length + 1
  (runRounds ev h fuelH (wList h fuelH instrs) [initBranch root instrs rel]).map
    (fun bs => bs.map (fun b => b.matchS))

/-! ## The compiler

`compiler.py`.  Parsimonious parsing of the pattern text is out of scope; the
compiler is modelled on the post-order visit of the parsed AST, whose visit
events fire exactly in left-to-right token order.  A pattern is therefore a
list of tokens (the frontier of the parse tree) and the generator is a left
fold over it, mirroring `SearchGenerator` / `InstructionGenerator`. -/
inductive Tok where
  | anyT
  | constT (s : String)
  | codeT (s : String)
  | refT (n : Nat)
  | lbrace
  | rbrace
  | childT
  | siblingT
  | nextSibT
  | parentAnyT
deriving Repr, DecidableEq

/-- Compile-time errors (`CompileError`): a reference to a group that is not
closed yet, too many parent relations, and the `ValueError` of `max()` on an
empty set (an unmatched closing brace, impossible for grammar-produced token
lists). -/
inductive CErr where
  | unboundGroup (n : Nat)
  | tooManyParents
  | maxOfEmpty
deriving Repr, DecidableEq

/-- The state of `SearchGenerator`: emitted instructions, the last started
group number, the set of ended groups and the child-level counter. -/
structure GenSt where
  instrs : List Instr
  started : Nat
  ended : List Nat
  childLevel : Int
deriving Repr, DecidableEq

/-- The initial generator state. -/
def GenSt.init : GenSt := { instrs := [], started := 0, ended := [], childLevel := 0 }

/-- `max(set(range(1, started + 1)) - ended)`: the highest started group
number that has not ended, if any. -/
def maxUnended (started : Nat) (ended : List Nat) : Option Nat :=
  let cand := (List.range' 1 started).filter (fun x => x ∉ ended)
  if cand.isEmpty then none else some (cand.foldr max 0)

/-- One visit event of `SearchGenerator` (one token of the pattern). -/
def genStep (st : GenSt) (t : Tok) : Except CErr GenSt :=
  match t with
  | .anyT => .ok { st with instrs := st.instrs ++ [.find .tru] }
  | .constT s => .ok { st with instrs := st.instrs ++ [.find (.eqConst s)] }
  | .codeT s => .ok { st with instrs := st.instrs ++ [.find (.host s)] }
  | .refT n =>
      if n ∈ st.ended then .ok { st with instrs := st.instrs ++ [.sref n] }
      else .error (.unboundGroup n)
  | .lbrace =>
      .ok { st with instrs := st.instrs ++ [.groupStart (st.started + 1)],
                    started := st.started + 1 }
  | .rbrace =>
      match maxUnended st.started st.ended with
      | none => .error .maxOfEmpty
      | some e =>
          .ok { st with instrs := st.instrs ++ [.groupEnd e], ended := st.ended ++ [e] }
  | .childT =>
      .ok { st with instrs := st.instrs ++ [.setRel .child],
                    childLevel := st.childLevel + 1 }
  | .siblingT => .ok { st with instrs := st.instrs ++ [.setRel .sibling] }
  | .nextSibT => .ok { st with instrs := st.instrs ++ [.setRel .nextSib] }
  | .parentAnyT =>
      if st.childLevel - 1 < 0 then .error .tooManyParents
      else .ok { st with instrs := st.instrs ++ [.setRel .parent, .find .tru],
                         childLevel := st.childLevel - 1 }

/-- Run the generator over the remaining tokens. -/
def genRun (g : GenSt) : List Tok → Except CErr GenSt
  | [] => .ok g
  | t :: rest =>
      match genStep g t with
      | .error e => .error e
      | .ok g2 => genRun g2 rest

/-- `Compiler.compile_pattern`: fold the generator over the pattern tokens. -/
def compileSearch (toks : List Tok) : Except CErr (List Instr) :=
  (genRun GenSt.init toks).map (fun st => st.instrs)

/-! ## The build machine

`build.py` and the build instructions of `instructions.py`.  `AddNode`
expressions are literal node values here (the replacement compiler emits the
literal for constants; computed host expressions are not needed by any
claim). -/
inductive BInstr where
  | addNode (v : String)
  | addRef (n : Nat)
  | goUp
  | bsetRel (r : Rel)
deriving Repr, DecidableEq

/-- Replacement tokens (`BuildGenerator` input). -/
inductive BTok where
  | bconstT (s : String)
  | brefT (n : Nat)
  | bchildT
  | bnextSibT
  | bparentAnyT
deriving Repr, DecidableEq

/-- The state of `BuildGenerator`. -/
structure BGenSt where
  instrs : List BInstr
  childLevel : Int
deriving Repr, DecidableEq

/-- One visit event of `BuildGenerator`. -/
def bgenStep (st : BGenSt) (t : BTok) : Except CErr BGenSt :=
  match t with
  | .bconstT s => .ok { st with instrs := st.instrs ++ [.addNode s] }
  | .brefT n => .ok { st with instrs := st.instrs ++ [.addRef n] }
  | .bchildT =>
      .ok { st with instrs := st.instrs ++ [.bsetRel .child],
                    childLevel := st.childLevel + 1 }
  | .bnextSibT => .ok { st with instrs := st.instrs ++ [.bsetRel .nextSib] }
  | .bparentAnyT =>
      if st.childLevel - 1 < 0 then .error .tooManyParents
      else .ok { st with instrs := st.instrs ++ [.goUp],
                         childLevel := st.childLevel - 1 }

/-- `Compiler.compile_replacement`. -/
def compileBuild (toks : List BTok) : Except CErr (List BInstr) :=
  (toks.foldlM bgenStep { instrs := [], childLevel := 0 }).map (fun st => st.instrs)

/-- Copy the member part of the subtree rooted at `i` into fresh heap nodes
(`Subtree.to_tree`, which `AddReference.execute` grafts into the tree being
built), returning the new heap and the id of the copied root. -/
def copySubF (hsrc : Heap) (nodes : List Nat) : Nat → Nat → Heap → Heap × Nat
  | 0, i, acc => alloc acc { value := valVal hsrc i, parent := none, children := [] }
  | fuel + 1, i, acc =>
      let cs := subChildren hsrc nodes i
      let step := fun (st : Heap × List Nat) (c : Nat) =>
        let res := copySubF hsrc nodes fuel c st.1
        (res.1, st.2 ++ [res.2])
      let built := cs.foldl step (acc, [])
      let res := alloc built.1 { value := valVal hsrc i, parent := none,
                                 children := built.2 }
      (built.2.foldl (fun hh c => updN hh c (fun n => { n with parent := some res.2 }))
        res.1, res.2)

/-- `relation.build(context, node)`: `Child` appends as the last child (the
docstring of `Child.build` says "first child", but `add_child` appends);
`NextSibling` inserts right after the context; the remaining relations have
no build operation (`AttributeError`). -/
def relBuild (h : Heap) (r : Rel) (ctx nid : Nat) : Except MErr Heap :=
  match r with
  | .child => .ok (addChild h ctx nid)
  | .nextSib =>
      match parentOf h ctx with
      | some p => .ok (insertChild h p nid (idxIn (childrenOf h p) ctx + 1))
      | none => .error .attrErr
  | _ => .error .attrErr

/-- The `BuildMachine` state: the heap being extended, the context node, the
current relation and the root of the tree under construction. -/
structure BuildSt where
  h : Heap
  node : Option Nat
  rel : Option Rel
  tree : Option Nat
deriving Repr, DecidableEq

/-- Attach a freshly created or copied node: it becomes the tree root if no
tree exists yet, otherwise the current relation's build operation attaches
it to the context node; it becomes the new context node either way. -/
def buildAttach (st : BuildSt) (h2 : Heap) (nid : Nat) : Except MErr BuildSt :=
  match st.tree with
  | none => .ok { st with h := h2, node := some nid, tree := some nid }
  | some _ =>
      match st.rel, st.node with
      | some r, some ctx => do
          let h3 ← relBuild h2 r ctx nid
          .ok { st with h := h3, node := some nid }
      | _, _ => .error .attrErr

/-- Execute one build instruction (`AddNode`, `AddReference`, `GoToParent`,
`SetRelation`). -/
def buildStep (m : MatchM) (st : BuildSt) (ins : BInstr) : Except MErr BuildSt :=
  match ins with
  | .addNode v =>
      let res := alloc st.h { value := v, parent := none, children := [] }
      buildAttach st res.1 res.2
  | .addRef n =>
      match m.get? n with
      | none => .error .indexErr
      | some sub =>
          match sub.root with
          | none => .error .attrErr
          | some r =>
              let res := copySubF st.h sub.nodes (st.h.length + 1) r st.h
              buildAttach st res.1 res.2
  | .goUp =>
      match st.node with
      | none => .error .attrErr
      | some i => .ok { st with node := parentOf st.h i }
  | .bsetRel r => .ok { st with rel := some r }

/-- `BuildMachine.build`: run all build instructions against one match and
return the extended heap and the root of the built tree. -/
def buildRun (h : Heap) (m : MatchM) (instrs : List BInstr) :
    Except MErr (Heap × Nat) := do
  let st ← instrs.foldlM (buildStep m) { h := h, node := none, rel := none, tree := none }
  match st.tree with
  | some r => .ok (st.h, r)
  | none => .error .attrErr

/-! ## Subtree geometry and the replacement strategies (`replace.py`) -/

/-- `Subtree.leaves`. -/
def subLeaves (h : Heap) (s : Sub) : List Nat :=
  match s.root with
  | some r => leavesHF h (some s.nodes) (h.length + 1) r
  | none => []

/-- `Subtree.connected_leaves`: member leaves that still have children in the
host tree. -/
def connLeaves (h : Heap) (s : Sub) : List Nat :=
  (subLeaves h s).filter (fun l => !(childrenOf h l).isEmpty)

/-- `Subtree.preorder`. -/
def subPreo (h : Heap) (s : Sub) : List Nat :=
  match s.root with
  | some r => subPreoF h s.nodes (h.length + 1) r
  | none => []

/-- `TreeBase.inner`: non-leaf members, in pre-order. -/
def subInner (h : Heap) (s : Sub) : List Nat :=
  let lv := subLeaves h s
  (subPreo h s).filter (fun i => i ∉ lv)

/-- `ReplaceStrategy._inner_nonsubtree_child`: some inner member has a child
outside the subtree. -/
def innerNonsub (h : Heap) (s : Sub) : Bool :=
  (subInner h s).any (fun i => (childrenOf h i).any (fun c => c ∉ s.nodes))

/-- `TreeBase.leaves` of a whole (build) tree. -/
def heapLeaves (h : Heap) (i : Nat) : List Nat := leavesHF h none (h.length + 1) i

/-- Modelled from the spec: `Node.replace_by` is used by the strategies but
missing from the snapshot's `nodes.py`; per the spec it structurally replaces
the old node "(value and children) with new's root (value and children) in
place": the node keeps its identity and parent, takes over the other node's
value and child list, and the adopted children are re-parented to it. -/
def nodeReplaceBy (h : Heap) (selfId otherId : Nat) : Heap :=
  let kids := childrenOf h otherId
  let h1 := updN h selfId
    (fun n => { n with value := valVal h otherId, children := kids })
  kids.foldl (fun hh c => updN hh c (fun n => { n with parent := some selfId })) h1

/-- Modelled from the spec: `Node.delete` is used by `ToOneNode.apply` but
missing from the snapshot's `nodes.py`; per the spec the leaf is detached
and deleted, i.e. removed from its parent's child list with its parent
reference cleared (`Node.delete_child` on its own index). -/
def nodeDelete (h : Heap) (i : Nat) : Heap :=
  match parentOf h i with
  | none => h
  | some p => deleteChild h p (idxIn (childrenOf h p) i)

/-- `SameShape.test`: the old subtree (through its `to_tree` copy) and the
new tree produce identical `traverse` marker sequences. -/
def sameShapeTest (h : Heap) (s : Sub) (nr : Nat) : Bool :=
  match s.root with
  | some r =>
      markersHF h (some s.nodes) (h.length + 1) r ==
        markersHF h none (h.length + 1) nr
  | none => false

/-- `SameShape.apply`: copy the new tree's values onto the old subtree's
nodes in matching pre-order positions. -/
def sameShapeApply (h : Heap) (s : Sub) (nr : Nat) : Except MErr Heap :=
  let pairs := (subPreo h s).zip (preoF h (h.length + 1) nr)
  .ok (pairs.foldl
    (fun hh pr => updN hh pr.1 (fun nd => { nd with value := valVal hh pr.2 })) h)

/-- `ToOneNode.test`: the new tree is a single node. -/
def toOneTest (h : Heap) (_s : Sub) (nr : Nat) : Bool :=
  (childrenOf h nr).isEmpty

/-- One pass of `ToOneNode.apply`'s inner loop: every current leaf is removed
from the subtree, its children are reattached to its former parent at its
former position, and the leaf is deleted. -/
def toOneIter (h : Heap) (s : Sub) : Except MErr (Heap × Sub) :=
  (subLeaves h s).foldlM
    (fun (st : Heap × Sub) leaf => do
      let s2 ← Sub.removeNode st.1 st.2 leaf
      match parentOf st.1 leaf with
      | none => .error .attrErr
      | some p =>
          let idx := idxIn (childrenOf st.1 p) leaf
          let h2 := (childrenOf st.1 leaf).reverse.foldl
            (fun hh c => insertChild hh p c idx) st.1
          pure (nodeDelete h2 leaf, s2))
    (h, s)

/-- The `while len(nodes) > 1` loop of `ToOneNode.apply`, then the root keeps
only the new root's value.  The member count shrinks every pass, so
`s.nodes.length + 1` passes always suffice. -/
def toOneLoop (nr : Nat) : Nat → Heap → Sub → Except MErr Heap
  | 0, _, _ => .error .fuelOut
  | fuel + 1, h, s =>
      if s.nodes.length > 1 then do
        let res ← toOneIter h s
        toOneLoop nr fuel res.1 res.2
      else
        match s.root with
        | some r => .ok (updN h r (fun nd => { nd with value := valVal h nr }))
        | none => .error .attrErr

/-- `ToOneNode.apply`. -/
def toOneApply (h : Heap) (s : Sub) (nr : Nat) : Except MErr Heap :=
  toOneLoop nr (s.nodes.length + 1) h s

/-- `NoConnectedLeaves.test`. -/
def noConnTest (h : Heap) (s : Sub) (_nr : Nat) : Bool :=
  (connLeaves h s).isEmpty && !innerNonsub h s

/-- `NoConnectedLeaves.apply`: replace the subtree root by the new root. -/
def noConnApply (h : Heap) (s : Sub) (nr : Nat) : Except MErr Heap :=
  match s.root with
  | some r => .ok (nodeReplaceBy h r nr)
  | none => .error .attrErr

/-- `SameLeafCount.test`. -/
def sameLeafTest (h : Heap) (s : Sub) (nr : Nat) : Bool :=
  ((subLeaves h s).length == (heapLeaves h nr).length) && !innerNonsub h s

/-- `SameConnectedCount.test`. -/
def sameConnTest (h : Heap) (s : Sub) (nr : Nat) : Bool :=
  ((connLeaves h s).length == (heapLeaves h nr).length) && !innerNonsub h s

/-- `LeafCountStrategy.apply`: pair the selected old leaves with the new
tree's leaves positionally, `add_child` every child of an old leaf onto the
paired new leaf (note: without removing it from the old leaf's child list),
then replace the roots. -/
def leafCountApply (sel : Heap → Sub → List Nat) (h : Heap) (s : Sub)
    (nr : Nat) : Except MErr Heap :=
  let pairs := (sel h s).zip (heapLeaves h nr)
  let h1 := pairs.foldl
    (fun hh pr => (childrenOf hh pr.1).foldl (fun hh2 c => addChild hh2 pr.2 c) hh)
    h
  match s.root with
  | some r => .ok (nodeReplaceBy h1 r nr)
  | none => .error .attrErr

/-- The precondition of strategy `k` in the fixed order of
`ReplaceStrategy.all_strategies`: `SameShape`, `ToOneNode`,
`NoConnectedLeaves`, `SameLeafCount`, `SameConnectedCount`. -/
def stratTest (k : Nat) (h : Heap) (s : Sub) (nr : Nat) : Bool :=
  match k with
  | 0 => sameShapeTest h s nr
  | 1 => toOneTest h s nr
  | 2 => noConnTest h s nr
  | 3 => sameLeafTest h s nr
  | 4 => sameConnTest h s nr
  | _ => false

/-- The action of strategy `k`, in the same order. -/
def stratApply (k : Nat) (h : Heap) (s : Sub) (nr : Nat) : Except MErr Heap :=
  match k with
  | 0 => sameShapeApply h s nr
  | 1 => toOneApply h s nr
  | 2 => noConnApply h s nr
  | 3 => leafCountApply subLeaves h s nr
  | 4 => leafCountApply connLeaves h s nr
  | _ => .error .ambiguousReplacement

/-- `Subtree.replace_by`: try the strategies in their fixed order, run the
first whose precondition holds, raise `ReplaceError` ("Ambiguous
replacement") if none does. -/
def subReplaceBy (h : Heap) (s : Sub) (nr : Nat) : Except MErr Heap :=
  if stratTest 0 h s nr then stratApply 0 h s nr
  else if stratTest 1 h s nr then stratApply 1 h s nr
  else if stratTest 2 h s nr then stratApply 2 h s nr
  else if stratTest 3 h s nr then stratApply 3 h s nr
  else if stratTest 4 h s nr then stratApply 4 h s nr
  else .error .ambiguousReplacement

/-! ## `Tree.replace`, `Tree.match`, `Tree.fullmatch` and the transform
driver's inner step (`trees.py`) -/

/-- The identity-based member-node set of one match (union of its groups). -/
def allNodesOf (m : MatchM) : List Nat :=
  ((m.map (fun s => s.nodes)).flatten).dedup

/-- Modelled from the spec: `Match.check_disjoint` lives in the current
`search.py`, which is missing from the snapshot (`trees.py` imports it);
per the spec, the member-node sets of all matches produced by one search
must be pairwise disjoint, otherwise an `OverlappingMatches` error is
raised before any replacement is made. -/
def disjointMatches : List MatchM → Bool
  | [] => true
  | m :: rest =>
      rest.all (fun m2 => (allNodesOf m).all (fun i => i ∉ allNodesOf m2)) &&
        disjointMatches rest

/-- The replacement loop shared by `Tree.replace` and `Tree.transform`: for
every match, build the replacement tree and splice it over the match's
whole-pattern capture.  Returns the final heap, plus the error that escaped,
if any. -/
def applyMatches (repl : List BInstr) : Heap → List MatchM → Heap × Option MErr
  | h, [] => (h, none)
  | h, m :: rest =>
      match buildRun h m repl with
      | .error e => (h, some e)
      | .ok res =>
          match subReplaceBy res.1 (group0 m) res.2 with
          | .error e => (res.1, some e)
          | .ok h2 => applyMatches repl h2 rest

/-- `Tree.replace`: search anywhere in the tree, check the matches are
pairwise disjoint, then build and splice a replacement for every match. -/
def replaceRun (ev : String → String → Bool) (h : Heap) (root : Nat)
    (pat : List Instr) (repl : List BInstr) : Heap × Option MErr :=
  match searchRun ev h root pat .desc with
  | .error e => (h, some e)
  | .ok ms =>
      if disjointMatches ms then applyMatches repl h ms
      else (h, some .overlappingMatches)

/-- One iteration of the `while matches:` inner loop of `Tree.transform`:
search, check disjointness, then replace every match; the boolean reports
whether the rule matched (drove `rule_matched`). -/
def transformStep (ev : String → String → Bool) (h : Heap) (root : Nat)
    (pat : List Instr) (repl : List BInstr) : (Heap × Option MErr) × Bool :=
  match searchRun ev h root pat .desc with
  | .error e => ((h, some e), false)
  | .ok ms =>
      if disjointMatches ms then (applyMatches repl h ms, !ms.isEmpty)
      else ((h, some .overlappingMatches), !ms.isEmpty)

/-- `Tree.match`: anchored search, starting with the `Identic` relation
(this keyword argument of the current `SearchMachine` is modelled from the
spec, the snapshot's `search.py` predating it). -/
def matchRun (ev : String → String → Bool) (h : Heap) (root : Nat)
    (pat : List Instr) : Except MErr (List MatchM) :=
  searchRun ev h root pat .identic

/-- `Tree.fullmatch`: anchored matches; if the union of their whole-capture
node sets counts as many nodes as the whole tree, return the matches,
otherwise return the empty (falsy) list. -/
def fullmatchRun (ev : String → String → Bool) (h : Heap) (root : Nat)
    (pat : List Instr) : Except MErr (List MatchM) :=
  match matchRun ev h root pat with
  | .error e => .error e
  | .ok ms =>
      let matched := ((ms.map (fun m => (group0 m).nodes)).flatten).dedup
      let total := (preoF h (h.length + 1) root).length
      .ok (if matched.length = total then ms else [])

/-! ## Concrete fixtures -/

/-- A host evaluator that rejects everything (no pattern below uses host
code, so its value is irrelevant). -/
def evNone : String → String → Bool := fun _ _ => false

/-- The tree `a (b c)`. -/
def heapABC : Heap :=
  [⟨"a", none, [1, 2]⟩, ⟨"b", some 0, []⟩, ⟨"c", some 0, []⟩]

/-- The tree `a (b b)`: two structurally-and-value-identical adjacent
siblings. -/
def heapABB : Heap :=
  [⟨"a", none, [1, 2]⟩, ⟨"b", some 0, []⟩, ⟨"b", some 0, []⟩]

/-- The tree `a (b (c))`. -/
def heapChain : Heap :=
  [⟨"a", none, [1]⟩, ⟨"b", some 0, [2]⟩, ⟨"c", some 1, []⟩]

/-- The tree `a (b (c) d e (f))`. -/
def heapBDE : Heap :=
  [⟨"a", none, [1, 3, 4]⟩, ⟨"b", some 0, [2]⟩, ⟨"c", some 1, []⟩,
   ⟨"d", some 0, []⟩, ⟨"e", some 0, [5]⟩, ⟨"f", some 4, []⟩]

/-- The compiled pattern `a < b, d, e`. -/
def patBDE : List Instr :=
  [Instr.find (.eqConst "a"), .setRel .child, .find (.eqConst "b"),
   .setRel .nextSib, .find (.eqConst "d"), .setRel .nextSib, .find (.eqConst "e")]

/-- The compiled replacement `w < x < y, z`. -/
def replWXYZ : List BInstr :=
  [BInstr.addNode "w", .bsetRel .child, .addNode "x", .bsetRel .child,
   .addNode "y", .bsetRel .nextSib, .addNode "z"]

/-- The compiled pattern `. < .` (any node with any child). -/
def patAnyChild : List Instr :=
  [Instr.find .tru, .setRel .child, .find .tru]

/-! ## Claim theorems -/

/-- C3: on the tree `a(b c)`, `replace` with pattern `b` and replacement
`x<y,z` terminates without error and produces the tree `a(x(y z) c)`: the
matched node `b` is replaced by `x` with children `y` and `z` (the
`NoConnectedLeaves` splice), while `c` keeps its position under `a`.  The
pattern and replacement are compiled from their token sequences exactly as
`Compiler` emits them. -/
theorem c3_replace_b_scenario :
    compileSearch [Tok.constT "b"] = .ok [Instr.find (.eqConst "b")] ∧
    compileBuild [BTok.bconstT "x", .bchildT, .bconstT "y", .bnextSibT, .bconstT "z"] =
      .ok [BInstr.addNode "x", .bsetRel .child, .addNode "y", .bsetRel .nextSib,
           .addNode "z"] ∧
    (replaceRun evNone heapABC 0 [Instr.find (.eqConst "b")]
        [BInstr.addNode "x", .bsetRel .child, .addNode "y", .bsetRel .nextSib,
         .addNode "z"]).2 = none ∧
    heapToPTree
        (replaceRun evNone heapABC 0 [Instr.find (.eqConst "b")]
          [BInstr.addNode "x", .bsetRel .child, .addNode "y", .bsetRel .nextSib,
           .addNode "z"]).1 0 =
      .node "a" [.node "x" [.node "y" [], .node "z" []], .node "c" []] :=
  ⟨rfl, rfl, rfl, rfl⟩

/-- C7: searching the tree `a(b b)` — two identical adjacent siblings — for
the pattern `{.} , $1` does not return matches at all: when the `Find`
generated from the back-reference adds the matched sibling to group 0, whose
only member is the first sibling, `Subtree.add_node` raises `SubtreeError`
("Disconnected subtree node"), because the sibling's parent is not a group-0
member.  The backreference law cannot be observed on the code as written. -/
theorem c7_backreference_sibling_raises :
    compileSearch [Tok.lbrace, .anyT, .rbrace, .nextSibT, .refT 1] =
      .ok [Instr.groupStart 1, .find .tru, .groupEnd 1, .setRel .nextSib, .sref 1] ∧
    searchRun evNone heapABB 0
        [Instr.groupStart 1, .find .tru, .groupEnd 1, .setRel .nextSib, .sref 1]
        .desc =
      .error .subtreeErr :=
  ⟨rfl, rfl⟩

/-- C8: `Child.build` attaches through `Node.add_child`, which *appends*:
attaching a new node `n` (id 2) to a context node (id 0) that already has
one child (id 1) yields the child list `[1, 2]` — the new node ends up at
index 1, not at index 0 as the docstring of `Child.build` ("add the given
node as a first child") and the spec state. -/
theorem c8_child_build_appends_last :
    relBuild [⟨"p", none, [1]⟩, ⟨"c", some 0, []⟩, ⟨"n", none, []⟩] .child 0 2 =
      .ok [⟨"p", none, [1, 2]⟩, ⟨"c", some 0, []⟩, ⟨"n", some 0, []⟩] ∧
    childrenOf [(⟨"p", none, [1, 2]⟩ : PNode), ⟨"c", some 0, []⟩, ⟨"n", some 0, []⟩] 0 =
      [1, 2] :=
  ⟨rfl, rfl⟩

/-- C9: replacing `a < b, d, e` by `w < x < y, z` in the tree
`a(b(c) d e(f))` (the `SameConnectedCount` splice, which moves the external
children `c` and `f` onto the new leaves with `add_child`) succeeds and
produces `w(x(y(c) z(f)))`, but leaves node `c` (id 2) in the child
sequences of two distinct nodes: the detached old leaf `b` (id 1) still
lists it while the new leaf `y` (id 8) also lists it, and `c`'s parent
back-reference names only `y`.  The single-parent invariant is violated. -/
theorem c9_stale_child_lists_after_replace :
    (replaceRun evNone heapBDE 0 patBDE replWXYZ).2 = none ∧
    heapToPTree (replaceRun evNone heapBDE 0 patBDE replWXYZ).1 0 =
      .node "w" [.node "x" [.node "y" [.node "c" []], .node "z" [.node "f" []]]] ∧
    childrenOf (replaceRun evNone heapBDE 0 patBDE replWXYZ).1 1 = [2] ∧
    childrenOf (replaceRun evNone heapBDE 0 patBDE replWXYZ).1 8 = [2] ∧
    parentOf (replaceRun evNone heapBDE 0 patBDE replWXYZ).1 2 = some 8 ∧
    (1 : Nat) ≠ 8 :=
  ⟨rfl, rfl, rfl, rfl, rfl, by decide⟩

/-- C5 counterexample: `fullmatch` *can* raise for a well-formed pattern.
The pattern `a < {b & c}` parses under the grammar, but on the tree `a(b c)`
the sibling `c` is added to group 1 whose only member is `b`, and
`Subtree.add_node` raises `SubtreeError` — `fullmatch` propagates it instead
of returning a result. -/
theorem c5_fullmatch_raises_counterexample :
    compileSearch [Tok.constT "a", .childT, .lbrace, .constT "b", .siblingT,
        .constT "c", .rbrace] =
      .ok [Instr.find (.eqConst "a"), .setRel .child, .groupStart 1,
           .find (.eqConst "b"), .setRel .sibling, .find (.eqConst "c"),
           .groupEnd 1] ∧
    fullmatchRun evNone heapABC 0
        [Instr.find (.eqConst "a"), .setRel .child, .groupStart 1,
         .find (.eqConst "b"), .setRel .sibling, .find (.eqConst "c"),
         .groupEnd 1] =
      .error .subtreeErr :=
  ⟨rfl, rfl⟩

/-- C1: whenever the search underlying `replace` produces matches whose
member-node sets are not pairwise disjoint, both `Tree.replace` and the
inner round of `Tree.transform` stop with the `OverlappingMatches` error and
return the heap exactly as it was — no node value, child list or parent
link is modified, because the disjointness check runs before any
replacement is built or spliced. -/
theorem c1_overlap_aborts_without_mutation
    (ev : String → String → Bool) (h : Heap) (root : Nat)
    (pat : List Instr) (repl : List BInstr) (ms : List MatchM)
    (hs : searchRun ev h root pat .desc = .ok ms)
    (hd : disjointMatches ms = false) :
    replaceRun ev h root pat repl = (h, some .overlappingMatches) ∧
    transformStep ev h root pat repl = ((h, some .overlappingMatches), !ms.isEmpty) := by
  unfold replaceRun transformStep
  rw [hs]
  simp [hd]

/-- C1 witness: on the tree `a(b(c))` the pattern `. < .` produces the two
matches `{a, b}` and `{b, c}`, which overlap at `b`; `replace` and the
transform round abort with `OverlappingMatches` and the heap is returned
unchanged. -/
theorem c1_overlap_aborts_without_mutation_witness :
    searchRun evNone heapChain 0 patAnyChild .desc =
      .ok [[⟨some 0, [0, 1]⟩], [⟨some 1, [1, 2]⟩]] ∧
    disjointMatches [[⟨some 0, [0, 1]⟩], [⟨some 1, [1, 2]⟩]] = false ∧
    replaceRun evNone heapChain 0 patAnyChild [BInstr.addNode "x"] =
      (heapChain, some .overlappingMatches) ∧
    transformStep evNone heapChain 0 patAnyChild [BInstr.addNode "x"] =
      ((heapChain, some .overlappingMatches), true) :=
  ⟨rfl, rfl,
    (c1_overlap_aborts_without_mutation evNone heapChain 0 patAnyChild
        [BInstr.addNode "x"] [[⟨some 0, [0, 1]⟩], [⟨some 1, [1, 2]⟩]] rfl rfl).1,
    (c1_overlap_aborts_without_mutation evNone heapChain 0 patAnyChild
        [BInstr.addNode "x"] [[⟨some 0, [0, 1]⟩], [⟨some 1, [1, 2]⟩]] rfl rfl).2⟩

/-- C2: `Subtree.replace_by` tries the strategies in exactly the order
`SameShape`, `ToOneNode`, `NoConnectedLeaves`, `SameLeafCount`,
`SameConnectedCount` (indices 0–4 of `stratTest`/`stratApply`): it runs the
action of the first strategy whose precondition holds — no earlier one —
and raises the `AmbiguousReplacement` replace error when no precondition
holds. -/
theorem c2_strategy_order (h : Heap) (s : Sub) (nr : Nat) :
    (∀ k, k < 5 → (∀ j, j < k → stratTest j h s nr = false) →
      stratTest k h s nr = true → subReplaceBy h s nr = stratApply k h s nr) ∧
    ((∀ j, j < 5 → stratTest j h s nr = false) →
      subReplaceBy h s nr = .error .ambiguousReplacement) := by
  constructor
  · intro k hk hprev htk
    interval_cases k
    · simp [subReplaceBy, htk]
    · have h0 := hprev 0 (by omega)
      simp [subReplaceBy, h0, htk]
    · have h0 := hprev 0 (by omega)
      have h1 := hprev 1 (by omega)
      simp [subReplaceBy, h0, h1, htk]
    · have h0 := hprev 0 (by omega)
      have h1 := hprev 1 (by omega)
      have h2 := hprev 2 (by omega)
      simp [subReplaceBy, h0, h1, h2, htk]
    · have h0 := hprev 0 (by omega)
      have h1 := hprev 1 (by omega)
      have h2 := hprev 2 (by omega)
      have h3 := hprev 3 (by omega)
      simp [subReplaceBy, h0, h1, h2, h3, htk]
  · intro hall
    have h0 := hall 0 (by omega)
    have h1 := hall 1 (by omega)
    have h2 := hall 2 (by omega)
    have h3 := hall 3 (by omega)
    have h4 := hall 4 (by omega)
    simp [subReplaceBy, h0, h1, h2, h3, h4]

/-- The heap of `a(b c)` right after building the replacement tree `x(y z)`
(fresh ids 3–5), as `Tree.replace` produces it before splicing. -/
def heapABCBuilt : Heap :=
  [⟨"a", none, [1, 2]⟩, ⟨"b", some 0, []⟩, ⟨"c", some 0, []⟩,
   ⟨"x", none, [4, 5]⟩, ⟨"y", some 3, []⟩, ⟨"z", some 3, []⟩]

/-- C2 witness: splicing the single-node subtree `{b}` with the replacement
tree `x(y z)`: `SameShape` and `ToOneNode` fail, `NoConnectedLeaves`
(index 2) holds, and `replace_by` runs exactly its action. -/
theorem c2_strategy_order_witness :
    stratTest 0 heapABCBuilt ⟨some 1, [1]⟩ 3 = false ∧
    stratTest 1 heapABCBuilt ⟨some 1, [1]⟩ 3 = false ∧
    stratTest 2 heapABCBuilt ⟨some 1, [1]⟩ 3 = true ∧
    subReplaceBy heapABCBuilt ⟨some 1, [1]⟩ 3 = stratApply 2 heapABCBuilt ⟨some 1, [1]⟩ 3 :=
  ⟨rfl, rfl, rfl,
    (c2_strategy_order heapABCBuilt ⟨some 1, [1]⟩ 3).1 2 (by omega)
      (by intro j hj; interval_cases j <;> rfl) rfl⟩

/-! ## Compilation caching and search determinism (C4)

The current `SearchMachine` (imported by `trees.py` but missing from the
snapshot, whose `search.py` predates it) gives the initial branch its own
copy-on-fork instruction queue, so a search never mutates the cached
compilation result; `Compiler.compile_pattern` is pure and `lru_cache`d by
source text.  The cache is modelled explicitly as an association list
threaded through the calls. -/
abbrev Cache := List (List Tok × List Instr)

/-- Look a pattern up in the compile cache. -/
def cacheLookup (c : Cache) (p : List Tok) : Option (List Instr) :=
  (c.find? (fun pr => pr.1 == p)).map (fun pr => pr.2)

/-- `Compiler.compile_pattern` with its `lru_cache`: return the cached
instruction list for this source if present, otherwise compile and cache
(exceptions are not cached, matching `lru_cache`). -/
def compileCached (c : Cache) (p : List Tok) : Except CErr (List Instr) × Cache :=
  match cacheLookup c p with
  | some i => (.ok i, c)
  | none =>
      match compileSearch p with
      | .ok i => (.ok i, (p, i) :: c)
      | .error e => (.error e, c)

/-- `Tree.search` including the compilation step and its cache. -/
def treeSearchCached (ev : String → String → Bool) (h : Heap) (root : Nat)
    (c : Cache) (p : List Tok) :
    Except CErr (Except MErr (List MatchM)) × Cache :=
  match compileCached c p with
  | (.ok instrs, c2) => (.ok (searchRun ev h root instrs .desc), c2)
  | (.error e, c2) => (.error e, c2)

/-- C4: `Tree.search` is deterministic across runs: calling it twice in
succession with the same tree, pattern source and variables — the second
call running against the compile cache the first call left behind — returns
the same outcome both times (same matches, or the same error), for every
starting cache. -/
theorem c4_search_deterministic_cached (ev : String → String → Bool)
    (h : Heap) (root : Nat) (c : Cache) (p : List Tok) :
    (treeSearchCached ev h root (treeSearchCached ev h root c p).2 p).1 =
      (treeSearchCached ev h root c p).1 := by
  unfold treeSearchCached compileCached
  cases hl : cacheLookup c p with
  | some i => simp [hl]
  | none =>
      cases hc : compileSearch p with
      | ok i => simp [hl, hc, cacheLookup]
      | error e => simp [hl, hc]

/-! ## Termination of the search machine (C10)

`SearchMachine.search` terminates because every instruction other than a
back-reference strictly shrinks its branch's queue, while a back-reference
expands once into a bounded sequence of `Find`/`SetRelation` instructions
containing no further back-reference.  The weight `wList` (a back-reference
weighs one more than the largest possible expansion) therefore strictly
decreases for every live branch each round, and `wList` of the initial
program bounds the number of rounds. -/

theorem mem_le_maxKids {h : Heap} {n : PNode} (hn : n ∈ h) :
    n.children.length ≤ maxKids h := by
  induction h with
  | nil => cases hn
  | cons x t ih =>
      rcases List.mem_cons.mp hn with rfl | hmem
      · exact le_max_left _ _
      · exact le_trans (ih hmem) (le_max_right _ _)

theorem childrenOf_length_le (h : Heap) (i : Nat) :
    (childrenOf h i).length ≤ maxKids h := by
  unfold childrenOf lookupN
  cases hg : h.get? i with
  | none => simp
  | some n => exact mem_le_maxKids (List.get?_mem hg)

theorem subChildren_length_le (h : Heap) (nodes : List Nat) (i : Nat) :
    (subChildren h nodes i).length ≤ maxKids h :=
  le_trans (List.length_filter_le _ _) (childrenOf_length_le h i)

theorem seqJoin_length_le (ls : List (List Instr)) :
    (seqJoin ls).length ≤ (ls.map (fun l => l.length)).sum + ls.length := by
  induction ls with
  | nil => simp [seqJoin]
  | cons m rest ih =>
      cases rest with
      | nil => simp [seqJoin]
      | cons m2 r2 =>
          show (m ++ .setRel .nextSib :: seqJoin (m2 :: r2)).length ≤ _
          simp only [List.length_append, List.length_cons, List.map_cons,
            List.sum_cons] at ih ⊢
          omega

theorem sum_map_le_card_mul {α : Type} (l : List α) (f : α → Nat) (B : Nat)
    (hf : ∀ x ∈ l, f x ≤ B) : (l.map f).sum ≤ l.length * B := by
  induction l with
  | nil => simp
  | cons x t ih =>
      simp only [List.map_cons, List.sum_cons, List.length_cons]
      have h1 := hf x (List.mem_cons_self x t)
      have h2 := ih (fun y hy => hf y (List.mem_cons_of_mem x hy))
      calc f x + (t.map f).sum ≤ B + t.length * B := by omega
        _ = (t.length + 1) * B := by ring

theorem genRefF_length_le (h : Heap) (nodes : List Nat) :
    ∀ fuel i, (genRefF h nodes fuel i).length ≤ genBound h fuel := by
  intro fuel
  induction fuel with
  | zero => intro i; simp [genRefF, genBound]
  | succ f ih =>
      intro i
      unfold genRefF
      by_cases hcs : (subChildren h nodes i).isEmpty
      · simp only [hcs, if_true, List.length_singleton, genBound]
        omega
      · simp only [hcs, Bool.false_eq_true, if_false]
        have hJ := seqJoin_length_le ((subChildren h nodes i).map (genRefF h nodes f))
        have hsum : (((subChildren h nodes i).map (genRefF h nodes f)).map
            (fun l => l.length)).sum ≤ (subChildren h nodes i).length * genBound h f := by
          rw [List.map_map]
          exact sum_map_le_card_mul _ _ _ (fun x _ => ih x)
        have hlen := subChildren_length_le h nodes i
        have hb : genBound h (f + 1) = 4 + maxKids h * (1 + genBound h f) := rfl
        rw [List.length_map] at hJ
        have hmul : (subChildren h nodes i).length * genBound h f +
            (subChildren h nodes i).length ≤ maxKids h * (1 + genBound h f) := by
          have hstep := Nat.mul_le_mul_right (1 + genBound h f) hlen
          calc (subChildren h nodes i).length * genBound h f + (subChildren h nodes i).length
              = (subChildren h nodes i).length * (1 + genBound h f) := by ring
            _ ≤ maxKids h * (1 + genBound h f) := hstep
        simp only [List.length_cons, List.length_append, List.length_nil]
        omega

theorem seqJoin_mem {ls : List (List Instr)} {ins : Instr}
    (hm : ins ∈ seqJoin ls) :
    (∃ l ∈ ls, ins ∈ l) ∨ ins = .setRel .nextSib := by
  induction ls with
  | nil => simp [seqJoin] at hm
  | cons m rest ih =>
      cases rest with
      | nil =>
          simp only [seqJoin] at hm
          exact .inl ⟨m, List.mem_cons_self _ _, hm⟩
      | cons m2 r2 =>
          replace hm : ins ∈ m ++ .setRel .nextSib :: seqJoin (m2 :: r2) := hm
          rcases List.mem_append.mp hm with hm | hm
          · exact .inl ⟨m, List.mem_cons_self _ _, hm⟩
          · rcases List.mem_cons.mp hm with rfl | hm
            · exact .inr rfl
            · rcases ih hm with ⟨l, hl, hil⟩ | heq
              · exact .inl ⟨l, List.mem_cons_of_mem _ hl, hil⟩
              · exact .inr heq

theorem genRefF_no_sref (h : Heap) (nodes : List Nat) :
    ∀ fuel i ins, ins ∈ genRefF h nodes fuel i → ins.isSref = false := by
  intro fuel
  induction fuel with
  | zero =>
      intro i ins hm
      simp only [genRefF, List.mem_singleton] at hm
      subst hm; rfl
  | succ f ih =>
      intro i ins hm
      unfold genRefF at hm
      by_cases hcs : (subChildren h nodes i).isEmpty
      · simp only [hcs, if_true, List.mem_singleton] at hm
        subst hm; rfl
      · simp only [hcs, Bool.false_eq_true, if_false, List.mem_cons,
          List.mem_append, List.mem_singleton, List.not_mem_nil, or_false] at hm
        rcases hm with rfl | rfl | hm | rfl | rfl
        · rfl
        · rfl
        · rcases seqJoin_mem hm with ⟨l, hl, hil⟩ | rfl
          · rcases List.mem_map.mp hl with ⟨c, _, rfl⟩
            exact ih c ins hil
          · rfl
        · rfl
        · rfl

theorem wInstr_pos (h : Heap) (fuelH : Nat) (ins : Instr) :
    1 ≤ wInstr h fuelH ins := by
  cases ins <;> simp [wInstr]

theorem wList_cons (h : Heap) (fuelH : Nat) (ins : Instr) (l : List Instr) :
    wList h fuelH (ins :: l) = wInstr h fuelH ins + wList h fuelH l := by
  simp [wList]

theorem wList_append (h : Heap) (fuelH : Nat) (a b : List Instr) :
    wList h fuelH (a ++ b) = wList h fuelH a + wList h fuelH b := by
  simp [wList]

theorem wList_eq_zero {h : Heap} {fuelH : Nat} {l : List Instr}
    (hw : wList h fuelH l = 0) : l = [] := by
  cases l with
  | nil => rfl
  | cons ins t =>
      rw [wList_cons] at hw
      have := wInstr_pos h fuelH ins
      omega

theorem wList_of_no_sref {h : Heap} {fuelH : Nat} {l : List Instr}
    (hns : ∀ ins ∈ l, ins.isSref = false) : wList h fuelH l = l.length := by
  induction l with
  | nil => simp [wList]
  | cons ins t ih =>
      rw [wList_cons, ih (fun x hx => hns x (List.mem_cons_of_mem _ hx))]
      have h1 := hns ins (List.mem_cons_self _ _)
      cases ins with
      | sref n => simp [Instr.isSref] at h1
      | find p => simp [wInstr, List.length_cons]; omega
      | setRel r => simp [wInstr, List.length_cons]; omega
      | groupStart n => simp [wInstr, List.length_cons]; omega
      | groupEnd n => simp [wInstr, List.length_cons]; omega

theorem forkBranches_ok {h : Heap} {b : Branch} {rest : List Instr} :
    ∀ {l : List Nat} {bs : List Branch},
      forkBranches h b rest l = .ok bs → ∀ b2 ∈ bs, b2.instrs = rest := by
  intro l
  induction l with
  | nil =>
      intro bs hf
      cases hf
      intro b2 hb2; cases hb2
  | cons i is ih =>
      intro bs hf
      simp only [forkBranches] at hf
      cases hadd : addToGroups h i b.groups b.matchS with
      | error e => simp only [hadd] at hf; cases hf
      | ok m2 =>
          simp only [hadd] at hf
          cases hrec : forkBranches h b rest is with
          | error e => simp only [hrec] at hf; cases hf
          | ok bs2 =>
              simp only [hrec, Except.ok.injEq] at hf
              subst hf
              intro b2 hb2
              rcases List.mem_cons.mp hb2 with rfl | hm
              · rfl
              · exact ih hrec b2 hm

theorem stepInstr_weight {ev : String → String → Bool} {h : Heap}
    {fuelH : Nat} {b : Branch} {ins : Instr} {rest : List Instr}
    {bs : List Branch}
    (hs : stepInstr ev h fuelH b ins rest = .ok bs) :
    ∀ b2 ∈ bs, wList h fuelH b2.instrs + 1 ≤ wList h fuelH (ins :: rest) := by
  intro b2 hb2
  cases ins with
  | find p =>
      have := forkBranches_ok hs b2 hb2
      rw [this, wList_cons]
      have := wInstr_pos h fuelH (.find p)
      omega
  | setRel r =>
      simp only [stepInstr] at hs
      cases hs
      rcases List.mem_singleton.mp hb2 with rfl
      rw [wList_cons]
      simp only [wInstr]
      omega
  | groupStart n =>
      simp only [stepInstr] at hs
      cases hs
      rcases List.mem_singleton.mp hb2 with rfl
      rw [wList_cons]
      simp only [wInstr]
      omega
  | groupEnd n =>
      simp only [stepInstr] at hs
      by_cases hmem : n ∈ b.groups
      · simp only [hmem, if_true] at hs
        cases hs
        rcases List.mem_singleton.mp hb2 with rfl
        rw [wList_cons]
        simp only [wInstr]
        omega
      · simp [hmem] at hs
  | sref n =>
      simp only [stepInstr] at hs
      cases hget : b.matchS.get? n with
      | none => simp only [hget] at hs; cases hs
      | some sub =>
          simp only [hget] at hs
          cases hroot : sub.root with
          | none => simp only [hroot] at hs; cases hs
          | some r =>
              simp only [hroot, Except.ok.injEq] at hs
              subst hs
              rcases List.mem_singleton.mp hb2 with rfl
              simp only [wList_append, wList_cons]
              have hlen := genRefF_length_le h sub.nodes fuelH r
              have hns := genRefF_no_sref h sub.nodes fuelH r
              rw [wList_of_no_sref hns]
              simp only [wInstr]
              omega

theorem stepBranch_weight {ev : String → String → Bool} {h : Heap}
    {fuelH : Nat} {b : Branch} {bs : List Branch} {M : Nat}
    (hw : wList h fuelH b.instrs ≤ M + 1)
    (hs : stepBranch ev h fuelH b = .ok bs) :
    ∀ b2 ∈ bs, wList h fuelH b2.instrs ≤ M := by
  intro b2 hb2
  unfold stepBranch at hs
  cases hq : b.instrs with
  | nil =>
      rw [hq] at hs
      cases hs
      rcases List.mem_singleton.mp hb2 with rfl
      rw [hq]
      simp [wList]
  | cons ins rest =>
      rw [hq] at hs hw
      have := stepInstr_weight hs b2 hb2
      omega

theorem stepRound_weight {ev : String → String → Bool} {h : Heap}
    {fuelH : Nat} {M : Nat} :
    ∀ {bs bs2 : List Branch},
      (∀ b ∈ bs, wList h fuelH b.instrs ≤ M + 1) →
      stepRound ev h fuelH bs = .ok bs2 →
      ∀ b2 ∈ bs2, wList h fuelH b2.instrs ≤ M := by
  intro bs
  induction bs with
  | nil =>
      intro bs2 _ hs
      cases hs
      intro b2 hb2; cases hb2
  | cons b rest ih =>
      intro bs2 hw hs
      simp only [stepRound] at hs
      cases hstep : stepBranch ev h fuelH b with
      | error e => simp only [hstep] at hs; cases hs
      | ok bs1 =>
          simp only [hstep] at hs
          cases hrec : stepRound ev h fuelH rest with
          | error e => simp only [hrec] at hs; cases hs
          | ok bsr =>
              simp only [hrec, Except.ok.injEq] at hs
              subst hs
              intro b2 hb2
              rcases List.mem_append.mp hb2 with hm | hm
              · exact stepBranch_weight (hw b (List.mem_cons_self _ _)) hstep b2 hm
              · exact ih (fun x hx => hw x (List.mem_cons_of_mem _ hx)) hrec b2 hm

theorem runRounds_done {ev : String → String → Bool} {h : Heap} {fuelH : Nat} :
    ∀ fuel M bs bs2, (∀ b ∈ bs, wList h fuelH b.instrs ≤ M) → M ≤ fuel →
      runRounds ev h fuelH fuel bs = .ok bs2 → allDone bs2 = true := by
  intro fuel
  induction fuel with
  | zero =>
      intro M bs bs2 hw hM hr
      simp only [runRounds, Except.ok.injEq] at hr
      subst hr
      simp only [allDone, List.all_eq_true]
      intro b hb
      have hz : wList h fuelH b.instrs = 0 := by
        have := hw b hb
        omega
      rw [wList_eq_zero hz]
      rfl
  | succ fuel ih =>
      intro M bs bs2 hw hM hr
      simp only [runRounds] at hr
      by_cases hd : allDone bs = true
      · rw [if_pos hd] at hr
        cases hr
        exact hd
      · rw [if_neg hd] at hr
        cases M with
        | zero =>
            exfalso
            apply hd
            simp only [allDone, List.all_eq_true]
            intro b hb
            have := wList_eq_zero (Nat.le_zero.mp (hw b hb))
            rw [this]
            rfl
        | succ M2 =>
            cases hstep : stepRound ev h fuelH bs with
            | error e => simp only [hstep] at hr; cases hr
            | ok bsn =>
                simp only [hstep] at hr
                exact ih M2 bsn bs2 (stepRound_weight hw hstep) (by omega) hr

/-- C10: `SearchMachine.search` terminates on every heap and instruction
list (`Find` predicates are total here, matching the claim's assumption):
running the machine for `wList` of the compiled program many rounds — the
round budget `searchRun` itself uses — either raises or reaches a state
where every branch's instruction queue is empty, i.e. the
`while any(branch.instructions ...)` loop exits; and a back-reference
expansion never contains another back-reference. -/
theorem c10_search_terminates (ev : String → String → Bool) (h : Heap)
    (root : Nat) (instrs : List Instr) (rel : Rel) :
    (∀ bs, runRounds ev h (h.length + 1) (wList h (h.length + 1) instrs)
        [initBranch root instrs rel] = .ok bs → allDone bs = true) ∧
    (∀ nodes fuel i ins, ins ∈ genRefF h nodes fuel i → ins.isSref = false) := by
  constructor
  · intro bs hr
    refine runRounds_done (wList h (h.length + 1) instrs)
      (wList h (h.length + 1) instrs) [initBranch root instrs rel] bs ?_ le_rfl hr
    intro b hb
    rcases List.mem_singleton.mp hb with rfl
    exact le_rfl
  · exact genRefF_no_sref h

/-- The two-node tree `a(a)`. -/
def heapAA : Heap := [⟨"a", none, [1]⟩, ⟨"a", some 0, []⟩]

/-- C10 witness: on the tree `a(a)` the machine for the compiled pattern
`{.} < $1` (a back-reference reached through a child step) finishes within
its round budget with every branch done. -/
theorem c10_search_terminates_witness :
    runRounds evNone heapAA (heapAA.length + 1)
        (wList heapAA (heapAA.length + 1)
          [Instr.groupStart 1, .find .tru, .groupEnd 1, .setRel .child, .sref 1])
        [initBranch 0 [Instr.groupStart 1, .find .tru, .groupEnd 1,
          .setRel .child, .sref 1] .desc] =
      .ok [⟨[0], [⟨some 0, [0, 1]⟩, ⟨some 0, [0]⟩], 1, .child, []⟩] ∧
    allDone [(⟨[0], [⟨some 0, [0, 1]⟩, ⟨some 0, [0]⟩], 1, .child, []⟩ : Branch)] = true := by
  constructor
  · rfl
  · exact (c10_search_terminates evNone heapAA 0
      [Instr.groupStart 1, .find .tru, .groupEnd 1, .setRel .child, .sref 1] .desc).1
      _ rfl

/-! ## Group numbering and back-reference checking (C6)

A spec-side model of "group N's closing brace has been seen earlier in the
same left-to-right pass": group numbers are allocated sequentially at each
opening brace, a stack tracks the currently open groups, and a closing brace
closes the innermost (top) one.  `refsOkB` walks the token list once and
checks that every `$N` names an already-closed group.  The theorem below
proves that the compiler (`SearchGenerator`, which instead computes the
group to close as `max(set(range(1, started + 1)) - ended)`) errors with
`UnboundGroup` exactly when this check fails. -/

/-- The stack model of group numbering. -/
structure SpecSt where
  nextNum : Nat
  stack : List Nat
  closed : List Nat
deriving Repr, DecidableEq

/-- The initial numbering state. -/
def SpecSt.init : SpecSt := ⟨0, [], []⟩

/-- One token of the left-to-right pass: an opening brace allocates the next
number and pushes it, a closing brace closes the top group. -/
def specStep (s : SpecSt) (t : Tok) : SpecSt :=
  match t with
  | .lbrace =>
      { nextNum := s.nextNum + 1, stack := (s.nextNum + 1) :: s.stack,
        closed := s.closed }
  | .rbrace =>
      match s.stack with
      | [] => s
      | top :: tl => { s with stack := tl, closed := s.closed ++ [top] }
  | _ => s

/-- Every closing brace has a matching open brace before it. -/
def balancedB (depth : Nat) : List Tok → Bool
  | [] => true
  | .lbrace :: rest => balancedB (depth + 1) rest
  | .rbrace :: rest => decide (0 < depth) && balancedB (depth - 1) rest
  | _ :: rest => balancedB depth rest

/-- Every ascend token has more `<` than `>` before it (no "too many parent
relations" error). -/
def parentsB (lvl : Nat) : List Tok → Bool
  | [] => true
  | .childT :: rest => parentsB (lvl + 1) rest
  | .parentAnyT :: rest => decide (0 < lvl) && parentsB (lvl - 1) rest
  | _ :: rest => parentsB lvl rest

/-- Every back-reference `$N` names a group whose closing brace occurred
earlier in the pass (left-to-right stack simulation from state `s`). -/
def refsOkRelB (s : SpecSt) : List Tok → Bool
  | [] => true
  | t :: rest =>
      (match t with
       | .refT n => decide (n ∈ s.closed)
       | _ => true) && refsOkRelB (specStep s t) rest

/-- `refsOkRelB` from the initial state. -/
def refsOkB (toks : List Tok) : Bool := refsOkRelB SpecSt.init toks

theorem foldr_max_le {l : List Nat} {x : Nat} (hall : ∀ y ∈ l, y ≤ x) :
    l.foldr max 0 ≤ x := by
  induction l with
  | nil => simp
  | cons a t ih =>
      simp only [List.foldr_cons]
      exact max_le (hall a (List.mem_cons_self _ _))
        (ih (fun y hy => hall y (List.mem_cons_of_mem _ hy)))

theorem foldr_max_eq {l : List Nat} {x : Nat} (hx : x ∈ l)
    (hall : ∀ y ∈ l, y ≤ x) : l.foldr max 0 = x := by
  induction l with
  | nil => cases hx
  | cons a t ih =>
      simp only [List.foldr_cons]
      rcases List.mem_cons.mp hx with rfl | hxt
      · exact Nat.max_eq_left (foldr_max_le (fun y hy => hall y (List.mem_cons_of_mem _ hy)))
      · rw [ih hxt (fun y hy => hall y (List.mem_cons_of_mem _ hy))]
        exact Nat.max_eq_right (hall a (List.mem_cons_self _ _))

theorem filter_ne_of_all_ne {l : List Nat} {t : Nat} (hall : ∀ y ∈ l, y ≠ t) :
    l.filter (fun x => x ≠ t) = l := by
  induction l with
  | nil => rfl
  | cons a r ih =>
      have ha := hall a (List.mem_cons_self _ _)
      have hr := ih (fun y hy => hall y (List.mem_cons_of_mem _ hy))
      rw [List.filter_cons, if_pos (by simp [ha]), hr]

theorem filter_not_mem_append (l e : List Nat) (t : Nat) :
    l.filter (fun x => x ∉ e ++ [t]) =
      (l.filter (fun x => x ∉ e)).filter (fun x => x ≠ t) := by
  induction l with
  | nil => rfl
  | cons a r ih =>
      by_cases hae : a ∈ e
      · have h1 : (a ∈ e ++ [t]) := List.mem_append.mpr (.inl hae)
        simp only [List.filter_cons, hae, h1]
        simpa using ih
      · by_cases hat : a = t
        · subst hat
          have h1 : (a ∈ e ++ [a]) := List.mem_append.mpr (.inr (List.mem_singleton.mpr rfl))
          simp only [List.filter_cons, hae, h1]
          simpa using ih
        · have h1 : ¬ (a ∈ e ++ [t]) := by
            simp [List.mem_append, hae, hat]
          simp only [List.filter_cons, hae, h1, hat]
          simpa [hat] using ih

/-- The generator and the stack model walk the token list in lock-step:
with the generator's ended set equal to the model's closed set, the open
groups equal to the stack (in reverse, sorted), compilation succeeds exactly
when every `$N` names an already-closed group, and fails with `UnboundGroup`
otherwise. -/
theorem genRun_spec :
    ∀ (rest : List Tok) (g : GenSt) (s : SpecSt) (lvl : Nat),
      g.started = s.nextNum →
      g.ended = s.closed →
      (List.range' 1 g.started).filter (fun x => x ∉ g.ended) = s.stack.reverse →
      List.Sorted (fun a b => b < a) s.stack →
      (∀ x ∈ s.stack, 1 ≤ x ∧ x ≤ s.nextNum) →
      (∀ x ∈ g.ended, 1 ≤ x ∧ x ≤ g.started) →
      g.childLevel = (lvl : Int) →
      balancedB s.stack.length rest = true →
      parentsB lvl rest = true →
      (refsOkRelB s rest = true → ∃ g2, genRun g rest = .ok g2) ∧
      (refsOkRelB s rest = false → ∃ m, genRun g rest = .error (.unboundGroup m)) := by
  intro rest
  induction rest with
  | nil =>
      intro g s lvl _ _ _ _ _ _ _ _ _
      constructor
      · intro _
        exact ⟨g, rfl⟩
      · intro hfalse
        simp [refsOkRelB] at hfalse
  | cons t rest ih =>
      intro g s lvl h1 h2 h3 h4 h5 h6 h7 hbal hpar
      cases t with
      | anyT =>
          have hstep : genStep g .anyT = .ok { g with instrs := g.instrs ++ [.find .tru] } := rfl
          simp only [genRun, hstep]
          have hres := ih { g with instrs := g.instrs ++ [.find .tru] } s lvl
            h1 h2 h3 h4 h5 h6 h7 hbal hpar
          simpa [refsOkRelB, specStep] using hres
      | constT cs =>
          have hstep : genStep g (.constT cs) =
              .ok { g with instrs := g.instrs ++ [.find (.eqConst cs)] } := rfl
          simp only [genRun, hstep]
          have hres := ih { g with instrs := g.instrs ++ [.find (.eqConst cs)] } s lvl
            h1 h2 h3 h4 h5 h6 h7 hbal hpar
          simpa [refsOkRelB, specStep] using hres
      | codeT cs =>
          have hstep : genStep g (.codeT cs) =
              .ok { g with instrs := g.instrs ++ [.find (.host cs)] } := rfl
          simp only [genRun, hstep]
          have hres := ih { g with instrs := g.instrs ++ [.find (.host cs)] } s lvl
            h1 h2 h3 h4 h5 h6 h7 hbal hpar
          simpa [refsOkRelB, specStep] using hres
      | siblingT =>
          have hstep : genStep g .siblingT =
              .ok { g with instrs := g.instrs ++ [.setRel .sibling] } := rfl
          simp only [genRun, hstep]
          have hres := ih { g with instrs := g.instrs ++ [.setRel .sibling] } s lvl
            h1 h2 h3 h4 h5 h6 h7 hbal hpar
          simpa [refsOkRelB, specStep] using hres
      | nextSibT =>
          have hstep : genStep g .nextSibT =
              .ok { g with instrs := g.instrs ++ [.setRel .nextSib] } := rfl
          simp only [genRun, hstep]
          have hres := ih { g with instrs := g.instrs ++ [.setRel .nextSib] } s lvl
            h1 h2 h3 h4 h5 h6 h7 hbal hpar
          simpa [refsOkRelB, specStep] using hres
      | childT =>
          have hstep : genStep g .childT =
              .ok { g with instrs := g.instrs ++ [.setRel .child],
                           childLevel := g.childLevel + 1 } := rfl
          simp only [genRun, hstep]
          have h7' : g.childLevel + 1 = ((lvl + 1 : Nat) : Int) := by
            rw [h7]; push_cast; ring
          have hpar' : parentsB (lvl + 1) rest = true := hpar
          have hres := ih { g with instrs := g.instrs ++ [.setRel .child],
                                   childLevel := g.childLevel + 1 } s (lvl + 1)
            h1 h2 h3 h4 h5 h6 h7' hbal hpar'
          simpa [refsOkRelB, specStep] using hres
      | parentAnyT =>
          have hpar2 : (0 < lvl) ∧ parentsB (lvl - 1) rest = true := by
            have : parentsB lvl (.parentAnyT :: rest) =
                (decide (0 < lvl) && parentsB (lvl - 1) rest) := rfl
            rw [this] at hpar
            simpa using hpar
          have hneg : ¬ (g.childLevel - 1 < 0) := by
            rw [h7]
            omega
          have hstep : genStep g .parentAnyT =
              .ok { g with instrs := g.instrs ++ [.setRel .parent, .find .tru],
                           childLevel := g.childLevel - 1 } := by
            simp [genStep, hneg]
          simp only [genRun, hstep]
          have h7' : g.childLevel - 1 = ((lvl - 1 : Nat) : Int) := by
            rw [h7]
            omega
          have hres := ih { g with instrs := g.instrs ++ [.setRel .parent, .find .tru],
                                   childLevel := g.childLevel - 1 } s (lvl - 1)
            h1 h2 h3 h4 h5 h6 h7' hbal hpar2.2
          simpa [refsOkRelB, specStep] using hres
      | refT n =>
          by_cases hmem : n ∈ g.ended
          · have hstep : genStep g (.refT n) =
                .ok { g with instrs := g.instrs ++ [.sref n] } := by
              simp [genStep, hmem]
            simp only [genRun, hstep]
            have hres := ih { g with instrs := g.instrs ++ [.sref n] } s lvl
              h1 h2 h3 h4 h5 h6 h7 hbal hpar
            have hcl : n ∈ s.closed := h2 ▸ hmem
            constructor
            · intro htrue
              apply hres.1
              have : refsOkRelB s (.refT n :: rest) =
                  (decide (n ∈ s.closed) && refsOkRelB s rest) := rfl
              rw [this, Bool.and_eq_true] at htrue
              exact htrue.2
            · intro hfalse
              apply hres.2
              have : refsOkRelB s (.refT n :: rest) =
                  (decide (n ∈ s.closed) && refsOkRelB s rest) := rfl
              rw [this] at hfalse
              simpa [hcl] using hfalse
          · have hstep : genStep g (.refT n) = .error (.unboundGroup n) := by
              simp [genStep, hmem]
            simp only [genRun, hstep]
            have hncl : n ∉ s.closed := h2 ▸ hmem
            constructor
            · intro htrue
              exfalso
              have : refsOkRelB s (.refT n :: rest) =
                  (decide (n ∈ s.closed) && refsOkRelB s rest) := rfl
              rw [this, Bool.and_eq_true] at htrue
              exact hncl (by simpa using htrue.1)
            · intro _
              exact ⟨n, rfl⟩
      | lbrace =>
          have hstep : genStep g .lbrace =
              .ok { g with instrs := g.instrs ++ [.groupStart (g.started + 1)],
                           started := g.started + 1 } := rfl
          simp only [genRun, hstep]
          have hnotin : (g.started + 1) ∉ g.ended := by
            intro hx
            have := (h6 _ hx).2
            omega
          have h3' : (List.range' 1 (g.started + 1)).filter (fun x => x ∉ g.ended) =
              ((s.nextNum + 1) :: s.stack).reverse := by
            rw [List.range'_1_concat, List.filter_append, h3]
            simp only [List.reverse_cons]
            congr 1
            rw [List.filter_cons, if_pos (by simpa [Nat.add_comm] using hnotin)]
            simp only [List.filter_nil]
            rw [h1]
            simp [Nat.add_comm]
          have h4' : List.Sorted (fun a b => b < a) ((s.nextNum + 1) :: s.stack) := by
            rw [List.sorted_cons]
            exact ⟨fun b hb => by have := (h5 b hb).2; omega, h4⟩
          have h5' : ∀ x ∈ (s.nextNum + 1) :: s.stack, 1 ≤ x ∧ x ≤ s.nextNum + 1 := by
            intro x hx
            rcases List.mem_cons.mp hx with rfl | hx2
            · omega
            · have := h5 x hx2
              omega
          have h6' : ∀ x ∈ g.ended, 1 ≤ x ∧ x ≤ g.started + 1 := by
            intro x hx
            have := h6 x hx
            omega
          have hbal' : balancedB ((s.nextNum + 1) :: s.stack).length rest = true := by
            simp only [List.length_cons]
            exact hbal
          have hres := ih { g with instrs := g.instrs ++ [.groupStart (g.started + 1)],
                                   started := g.started + 1 }
            { nextNum := s.nextNum + 1, stack := (s.nextNum + 1) :: s.stack,
              closed := s.closed } lvl
            (by rw [h1]) h2 h3' h4' h5' h6' h7 hbal' hpar
          simpa [refsOkRelB, specStep] using hres
      | rbrace =>
          cases hstk : s.stack with
          | nil =>
              exfalso
              have : balancedB s.stack.length (.rbrace :: rest) =
                  (decide (0 < s.stack.length) && balancedB (s.stack.length - 1) rest) := rfl
              rw [this, hstk] at hbal
              simp at hbal
          | cons top tl =>
              have hcand : (List.range' 1 g.started).filter (fun x => x ∉ g.ended) =
                  tl.reverse ++ [top] := by
                rw [h3, hstk]
                simp
              have htop_tl : ∀ y ∈ tl, y < top := by
                intro y hy
                have := (List.sorted_cons.mp (hstk ▸ h4)).1
                exact this y hy
              have hmax : maxUnended g.started g.ended = some top := by
                unfold maxUnended
                rw [hcand]
                have hne : ((tl.reverse ++ [top]).isEmpty) = false := by
                  simp
                simp only [hne, Bool.false_eq_true, if_false, Option.some.injEq]
                apply foldr_max_eq
                · simp
                · intro y hy
                  rcases List.mem_append.mp hy with hy2 | hy2
                  · exact le_of_lt (htop_tl y (List.mem_reverse.mp hy2))
                  · rw [List.mem_singleton.mp hy2]
              have hstep : genStep g .rbrace =
                  .ok { g with instrs := g.instrs ++ [.groupEnd top],
                               ended := g.ended ++ [top] } := by
                simp [genStep, hmax]
              simp only [genRun, hstep]
              have htl : (List.range' 1 g.started).filter
                  (fun x => x ∉ g.ended ++ [top]) = tl.reverse := by
                rw [filter_not_mem_append, hcand, List.filter_append]
                rw [filter_ne_of_all_ne (fun y hy => Nat.ne_of_lt (htop_tl y (List.mem_reverse.mp hy)))]
                rw [List.filter_cons, if_neg (by simp), List.filter_nil, List.append_nil]
              have htop_range : 1 ≤ top ∧ top ≤ s.nextNum := by
                apply h5
                rw [hstk]
                exact List.mem_cons_self _ _
              have h6' : ∀ x ∈ g.ended ++ [top], 1 ≤ x ∧ x ≤ g.started := by
                intro x hx
                rcases List.mem_append.mp hx with hx2 | hx2
                · exact h6 x hx2
                · rw [List.mem_singleton.mp hx2, h1]
                  exact htop_range
              have hbal2 : balancedB tl.length rest = true := by
                have : balancedB s.stack.length (.rbrace :: rest) =
                    (decide (0 < s.stack.length) && balancedB (s.stack.length - 1) rest) := rfl
                rw [this, hstk] at hbal
                simpa using hbal
              have hres := ih { g with instrs := g.instrs ++ [.groupEnd top],
                                       ended := g.ended ++ [top] }
                { nextNum := s.nextNum, stack := tl, closed := s.closed ++ [top] } lvl
                h1 (by rw [h2]) htl
                (List.sorted_cons.mp (hstk ▸ h4)).2
                (fun x hx => h5 x (hstk ▸ List.mem_cons_of_mem _ hx))
                h6' h7 hbal2 hpar
              have hspec : specStep s .rbrace =
                  { nextNum := s.nextNum, stack := tl, closed := s.closed ++ [top] } := by
                simp [specStep, hstk]
              constructor
              · intro htrue
                apply hres.1
                have heq : refsOkRelB s (.rbrace :: rest) =
                    (true && refsOkRelB (specStep s .rbrace) rest) := rfl
                rw [heq, hspec] at htrue
                simpa using htrue
              · intro hfalse
                apply hres.2
                have heq : refsOkRelB s (.rbrace :: rest) =
                    (true && refsOkRelB (specStep s .rbrace) rest) := rfl
                rw [heq, hspec] at hfalse
                simpa using hfalse

/-- C6: for every grammar-producible pattern token list (balanced braces, no
excess ascends), compilation raises the `UnboundGroup` compile error exactly
when some back-reference `$N` is reached before group `N`'s closing brace in
the same left-to-right pass (`refsOkB`, the stack model of sequential group
numbering): a reference to a group that is open but not yet closed — or
never opened — is rejected with `UnboundGroup`, and when every reference
names an already-closed group, compilation succeeds. -/
theorem c6_reference_requires_closed_group (toks : List Tok)
    (hbal : balancedB 0 toks = true) (hpar : parentsB 0 toks = true) :
    (refsOkB toks = true → ∃ instrs, compileSearch toks = .ok instrs) ∧
    (refsOkB toks = false → ∃ m, compileSearch toks = .error (.unboundGroup m)) := by
  have hres := genRun_spec toks GenSt.init SpecSt.init 0 rfl rfl rfl
    List.sorted_nil (fun x hx => by cases hx) (fun x hx => by cases hx) rfl hbal hpar
  constructor
  · intro hok
    obtain ⟨g2, hg⟩ := hres.1 hok
    exact ⟨g2.instrs, by rw [compileSearch, hg]; rfl⟩
  · intro hko
    obtain ⟨m, hg⟩ := hres.2 hko
    exact ⟨m, by rw [compileSearch, hg]; rfl⟩

/-- C6 witness: the pattern `{a} , $1` (reference after the group closed)
satisfies the checks and compiles; the pattern `{a , $1}` (reference while
group 1 is still open) fails the check and is rejected with `UnboundGroup`. -/
theorem c6_reference_requires_closed_group_witness :
    balancedB 0 [Tok.lbrace, .constT "a", .rbrace, .nextSibT, .refT 1] = true ∧
    parentsB 0 [Tok.lbrace, .constT "a", .rbrace, .nextSibT, .refT 1] = true ∧
    refsOkB [Tok.lbrace, .constT "a", .rbrace, .nextSibT, .refT 1] = true ∧
    (∃ instrs, compileSearch [Tok.lbrace, .constT "a", .rbrace, .nextSibT, .refT 1] =
      .ok instrs) ∧
    balancedB 0 [Tok.lbrace, .constT "a", .nextSibT, .refT 1, .rbrace] = true ∧
    parentsB 0 [Tok.lbrace, .constT "a", .nextSibT, .refT 1, .rbrace] = true ∧
    refsOkB [Tok.lbrace, .constT "a", .nextSibT, .refT 1, .rbrace] = false ∧
    (∃ m, compileSearch [Tok.lbrace, .constT "a", .nextSibT, .refT 1, .rbrace] =
      .error (.unboundGroup m)) :=
  ⟨rfl, rfl, rfl,
    (c6_reference_requires_closed_group
      [Tok.lbrace, .constT "a", .rbrace, .nextSibT, .refT 1] rfl rfl).1 rfl,
    rfl, rfl, rfl,
    (c6_reference_requires_closed_group
      [Tok.lbrace, .constT "a", .nextSibT, .refT 1, .rbrace] rfl rfl).2 rfl⟩

/-! ## Well-formed heaps and the reachable node set (C5)

A heap is a well-formed tree rooted at `root` when the root is orphaned,
child ids stay in range, parent back-references and child lists agree in
both directions, child lists are duplicate-free, and a depth function
certifies acyclicity.  On such heaps, `preoF` with fuel `h.length + 1`
enumerates exactly the tree's nodes, without duplicates. -/
structure WfH (h : Heap) (root : Nat) : Prop where
  rootLt : root < h.length
  rootOrphan : parentOf h root = none
  closedIds : ∀ i, i < h.length → ∀ c ∈ childrenOf h i, c < h.length
  parentCoh : ∀ i, i < h.length → ∀ c ∈ childrenOf h i, parentOf h c = some i
  childCoh : ∀ i, i < h.length → ∀ p, parentOf h i = some p →
    p < h.length ∧ i ∈ childrenOf h p
  nodupKids : ∀ i, i < h.length → (childrenOf h i).Nodup
  acyc : ∃ d : Nat → Nat,
    (∀ i, i < h.length → ∀ c ∈ childrenOf h i, d c = d i + 1) ∧
    (∀ i, i < h.length → d i < h.length)

/-- The `k`-fold parent of a node, when the whole chain exists. -/
def parIter (h : Heap) : Nat → Nat → Option Nat
  | 0, i => some i
  | k + 1, i =>
      match parentOf h i with
      | some p => parIter h k p
      | none => none

theorem parIter_add (h : Heap) :
    ∀ a b j, parIter h (a + b) j =
      match parIter h a j with
      | some t => parIter h b t
      | none => none := by
  intro a
  induction a with
  | zero => intro b j; simp [parIter]
  | succ a ih =>
      intro b j
      have hcomm : a + 1 + b = (a + b) + 1 := by omega
      rw [hcomm]
      cases hp : parentOf h j with
      | none =>
          show (match parentOf h j with
                | some p => parIter h (a + b) p
                | none => none) = _
          simp [parIter, hp]
      | some p =>
          have hL : parIter h (a + b + 1) j = parIter h (a + b) p := by
            show (match parentOf h j with
                  | some q => parIter h (a + b) q
                  | none => none) = _
            rw [hp]
          have hR : parIter h (a + 1) j = parIter h a p := by
            show (match parentOf h j with
                  | some q => parIter h a q
                  | none => none) = _
            rw [hp]
          rw [hL, ih b p, hR]

theorem parIter_snoc {h : Heap} {k j t p : Nat}
    (h1 : parIter h k j = some t) (h2 : parentOf h t = some p) :
    parIter h (k + 1) j = some p := by
  rw [parIter_add h k 1 j, h1]
  simp [parIter, h2]

theorem mem_preoF_self {h : Heap} {f i : Nat} (hf : 0 < f) :
    i ∈ preoF h f i := by
  cases f with
  | zero => omega
  | succ f => exact List.mem_cons_self _ _

theorem preoF_comp {h : Heap} :
    ∀ {f i p j : Nat}, p ∈ preoF h f i → j ∈ childrenOf h p →
      j ∈ preoF h (f + 1) i := by
  intro f
  induction f with
  | zero => intro i p j hm; cases hm
  | succ f ih =>
      intro i p j hm hj
      simp only [preoF, List.mem_cons, List.mem_flatten] at hm
      rcases hm with rfl | ⟨l, hl, hml⟩
      · simp only [preoF, List.mem_cons, List.mem_flatten]
        right
        exact ⟨preoF h (f + 1) j, List.mem_map.mpr ⟨j, hj, rfl⟩,
          mem_preoF_self (by omega)⟩
      · rcases List.mem_map.mp hl with ⟨c, hc, rfl⟩
        simp only [preoF, List.mem_cons, List.mem_flatten]
        right
        exact ⟨preoF h (f + 1) c, List.mem_map.mpr ⟨c, hc, rfl⟩, ih hml hj⟩

/-- Walking `k` parent steps from a valid node adds `k` to the depth and
lands on a valid node. -/
theorem chain_d {h : Heap} {root : Nat} (wf : WfH h root) {d : Nat → Nat}
    (hd1 : ∀ i, i < h.length → ∀ c ∈ childrenOf h i, d c = d i + 1) :
    ∀ k j t, j < h.length → parIter h k j = some t →
      d j = d t + k ∧ t < h.length := by
  intro k
  induction k with
  | zero =>
      intro j t hj hp
      cases hp
      exact ⟨by omega, hj⟩
  | succ k ih =>
      intro j t hj hp
      cases hpar : parentOf h j with
      | none =>
          have hred : parIter h (k + 1) j = none := by
            show (match parentOf h j with
                  | some q => parIter h k q
                  | none => none) = _
            rw [hpar]
          rw [hred] at hp
          cases hp
      | some p =>
          have hred : parIter h (k + 1) j = parIter h k p := by
            show (match parentOf h j with
                  | some q => parIter h k q
                  | none => none) = _
            rw [hpar]
          rw [hred] at hp
          have hcc := wf.childCoh j hj p hpar
          have hdj : d j = d p + 1 := hd1 p hcc.1 j hcc.2
          have hrec := ih p t hcc.1 hp
          exact ⟨by omega, hrec.2⟩

/-- Every pre-order member has an ancestor chain back to the traversal
root, shorter than the fuel. -/
theorem mem_parIter {h : Heap} {root : Nat} (wf : WfH h root) :
    ∀ f i j, i < h.length → j ∈ preoF h f i →
      ∃ k, k < f ∧ parIter h k j = some i ∧ j < h.length := by
  intro f
  induction f with
  | zero => intro i j _ hm; cases hm
  | succ f ih =>
      intro i j hi hm
      simp only [preoF, List.mem_cons, List.mem_flatten] at hm
      rcases hm with rfl | ⟨l, hl, hml⟩
      · exact ⟨0, by omega, rfl, hi⟩
      · rcases List.mem_map.mp hl with ⟨c, hc, rfl⟩
        have hclt := wf.closedIds i hi c hc
        obtain ⟨k, hk, hpi, hjlt⟩ := ih c j hclt hml
        have hpc : parentOf h c = some i := wf.parentCoh i hi c hc
        exact ⟨k + 1, by omega, parIter_snoc hpi hpc, hjlt⟩

/-- Conversely, an ancestor chain shorter than the fuel puts the node in the
ancestor's pre-order enumeration. -/
theorem parIter_mem {h : Heap} {root : Nat} (wf : WfH h root) :
    ∀ k j i f, j < h.length → parIter h k j = some i → k < f →
      j ∈ preoF h f i := by
  intro k
  induction k with
  | zero =>
      intro j i f _ hp hf
      cases hp
      exact mem_preoF_self hf
  | succ k ih =>
      intro j i f hj hp hf
      cases hpar : parentOf h j with
      | none =>
          have hred : parIter h (k + 1) j = none := by
            show (match parentOf h j with
                  | some q => parIter h k q
                  | none => none) = _
            rw [hpar]
          rw [hred] at hp
          cases hp
      | some p =>
          have hred : parIter h (k + 1) j = parIter h k p := by
            show (match parentOf h j with
                  | some q => parIter h k q
                  | none => none) = _
            rw [hpar]
          rw [hred] at hp
          have hcc := wf.childCoh j hj p hpar
          cases f with
          | zero => omega
          | succ f =>
              exact preoF_comp (ih p i f hcc.1 hp (by omega)) hcc.2

/-- The node set of the tree rooted at `root`: its pre-order enumeration
with adequate fuel (what `Tree.preorder` yields on a well-formed heap). -/
def treeNodes (h : Heap) (root : Nat) : List Nat := preoF h (h.length + 1) root

theorem root_mem_treeNodes (h : Heap) (root : Nat) : root ∈ treeNodes h root :=
  mem_preoF_self (by omega)

theorem treeNodes_lt {h : Heap} {root : Nat} (wf : WfH h root) {i : Nat}
    (hi : i ∈ treeNodes h root) : i < h.length := by
  obtain ⟨_, _, _, hlt⟩ := mem_parIter wf _ root i wf.rootLt hi
  exact hlt

/-- Children of reachable nodes are reachable. -/
theorem child_closure {h : Heap} {root : Nat} (wf : WfH h root) {i c : Nat}
    (hi : i ∈ treeNodes h root) (hc : c ∈ childrenOf h i) :
    c ∈ treeNodes h root := by
  rcases wf.acyc with ⟨d, hd1, hd2⟩
  obtain ⟨k, _, hpi, hilt⟩ := mem_parIter wf _ root i wf.rootLt hi
  have hchain := chain_d wf hd1 k i root hilt hpi
  have hclt := wf.closedIds i hilt c hc
  have hpc : parentOf h c = some i := wf.parentCoh i hilt c hc
  have hstep : parIter h (k + 1) c = some root := by
    have hred : parIter h (k + 1) c = parIter h k i := by
      show (match parentOf h c with
            | some q => parIter h k q
            | none => none) = _
      rw [hpc]
    rw [hred]
    exact hpi
  apply parIter_mem wf (k + 1) c root (h.length + 1) hclt hstep
  have := hd2 i hilt
  omega

/-- Parents of reachable nodes are reachable. -/
theorem parent_closure {h : Heap} {root : Nat} (wf : WfH h root) {i p : Nat}
    (hi : i ∈ treeNodes h root) (hp : parentOf h i = some p) :
    p ∈ treeNodes h root := by
  obtain ⟨k, hk, hpi, hilt⟩ := mem_parIter wf _ root i wf.rootLt hi
  cases k with
  | zero =>
      cases hpi
      rw [wf.rootOrphan] at hp
      cases hp
  | succ k =>
      have hred : parIter h (k + 1) i = parIter h k p := by
        show (match parentOf h i with
              | some q => parIter h k q
              | none => none) = _
        rw [hp]
      rw [hred] at hpi
      have hcc := wf.childCoh i hilt p hp
      exact parIter_mem wf k p root (h.length + 1) hcc.1 hpi (by omega)

/-- The pre-order enumeration of a reachable node stays reachable. -/
theorem desc_closure {h : Heap} {root : Nat} (wf : WfH h root) {i j : Nat}
    (hi : i ∈ treeNodes h root) (hj : j ∈ preoF h (h.length + 1) i) :
    j ∈ treeNodes h root := by
  rcases wf.acyc with ⟨d, hd1, hd2⟩
  obtain ⟨k2, _, hp2, hilt⟩ := mem_parIter wf _ root i wf.rootLt hi
  obtain ⟨k1, _, hp1, hjlt⟩ := mem_parIter wf _ i j hilt hj
  have hc1 := chain_d wf hd1 k1 j i hjlt hp1
  have hc2 := chain_d wf hd1 k2 i root hilt hp2
  have hcomp : parIter h (k1 + k2) j = some root := by
    rw [parIter_add h k1 k2 j, hp1]
    exact hp2
  apply parIter_mem wf (k1 + k2) j root (h.length + 1) hjlt hcomp
  have := hd2 j hjlt
  omega

/-- On a well-formed heap, the pre-order enumeration has no duplicates. -/
theorem preoF_nodup {h : Heap} {root : Nat} (wf : WfH h root) {d : Nat → Nat}
    (hd1 : ∀ i, i < h.length → ∀ c ∈ childrenOf h i, d c = d i + 1) :
    ∀ f i, i < h.length → (preoF h f i).Nodup := by
  intro f
  induction f with
  | zero => intro i _; simp [preoF]
  | succ f ih =>
      intro i hi
      simp only [preoF]
      rw [List.nodup_cons]
      constructor
      · intro hmem
        rcases List.mem_flatten.mp hmem with ⟨l, hl, hml⟩
        rcases List.mem_map.mp hl with ⟨c, hc, rfl⟩
        have hclt := wf.closedIds i hi c hc
        obtain ⟨k, _, hp, _⟩ := mem_parIter wf f c i hclt hml
        have hch := chain_d wf hd1 k i c hi hp
        have hdc : d c = d i + 1 := hd1 i hi c hc
        omega
      · rw [List.nodup_flatten]
        constructor
        · intro l hl
          rcases List.mem_map.mp hl with ⟨c, hc, rfl⟩
          exact ih c (wf.closedIds i hi c hc)
        · rw [List.pairwise_map]
          apply List.Pairwise.imp_of_mem ?_ (wf.nodupKids i hi)
          intro a b ha hb hne x hxa hxb
          have halt := wf.closedIds i hi a ha
          have hblt := wf.closedIds i hi b hb
          obtain ⟨k1, _, hp1, hxlt⟩ := mem_parIter wf f a x halt hxa
          obtain ⟨k2, _, hp2, _⟩ := mem_parIter wf f b x hblt hxb
          have hca := chain_d wf hd1 k1 x a hxlt hp1
          have hcb := chain_d wf hd1 k2 x b hxlt hp2
          have hda : d a = d i + 1 := hd1 i hi a ha
          have hdb : d b = d i + 1 := hd1 i hi b hb
          have hk : k1 = k2 := by omega
          apply hne
          have hsome : some a = some b := by rw [← hp1, ← hp2, hk]
          injection hsome

/-- `treeNodes` is duplicate-free on a well-formed heap. -/
theorem treeNodes_nodup {h : Heap} {root : Nat} (wf : WfH h root) :
    (treeNodes h root).Nodup := by
  rcases wf.acyc with ⟨d, hd1, _⟩
  exact preoF_nodup wf hd1 _ root wf.rootLt

/-- Every relation's `search` stays inside the tree's node set. -/
theorem relSearch_closed {h : Heap} {root : Nat} (wf : WfH h root) :
    ∀ r i, i ∈ treeNodes h root →
      ∀ j ∈ relSearch h (h.length + 1) r i, j ∈ treeNodes h root := by
  intro r i hi j hj
  cases r with
  | child => exact child_closure wf hi hj
  | sibling =>
      simp only [relSearch] at hj
      cases hp : parentOf h i with
      | none => simp only [hp] at hj; cases hj
      | some p =>
          simp only [hp] at hj
          exact child_closure wf (parent_closure wf hi hp) (List.mem_of_mem_filter hj)
  | nextSib =>
      simp only [relSearch] at hj
      cases hp : parentOf h i with
      | none => simp only [hp] at hj; cases hj
      | some p =>
          simp only [hp] at hj
          cases hg : (childrenOf h p).get? (idxIn (childrenOf h p) i + 1) with
          | none => simp only [hg] at hj; cases hj
          | some c =>
              simp only [hg] at hj
              rcases List.mem_singleton.mp hj with rfl
              exact child_closure wf (parent_closure wf hi hp) (List.get?_mem hg)
  | parent =>
      simp only [relSearch] at hj
      cases hp : parentOf h i with
      | none => simp only [hp] at hj; cases hj
      | some p =>
          simp only [hp] at hj
          rcases List.mem_singleton.mp hj with rfl
          exact parent_closure wf hi hp
  | desc => exact desc_closure wf hi hj
  | identic =>
      simp only [relSearch] at hj
      rcases List.mem_singleton.mp hj with rfl
      exact hi

theorem insertNode_sub {s : Sub} {i n : Nat} (hn : n ∈ s.insertNode i) :
    n ∈ s.nodes ∨ n = i := by
  unfold Sub.insertNode at hn
  by_cases hmem : i ∈ s.nodes
  · rw [if_pos hmem] at hn
    exact .inl hn
  · rw [if_neg hmem] at hn
    rcases List.mem_append.mp hn with h1 | h1
    · exact .inl h1
    · exact .inr (List.mem_singleton.mp h1)

/-- Every success branch of `Subtree.add_node` produces the member set
extended with the new node. -/
theorem addNode_nodes_eq {h : Heap} {s : Sub} {i : Nat} {s2 : Sub}
    (ha : s.addNode h i = .ok s2) : s2.nodes = s.insertNode i := by
  unfold Sub.addNode at ha
  cases hr : s.root with
  | none =>
      simp only [hr] at ha
      cases ha
      rfl
  | some r =>
      simp only [hr] at ha
      by_cases hpr : parentOf h r = some i
      · rw [if_pos hpr] at ha
        cases ha
        rfl
      · rw [if_neg hpr] at ha
        by_cases hc : ((match parentOf h i with
            | some p => decide (p ∈ s.nodes)
            | none => false) || decide (i ∈ s.nodes)) = true
        · rw [if_pos hc] at ha
          cases ha
          rfl
        · rw [if_neg hc] at ha
          cases ha

/-- Adding a node to the open groups only ever adds that node to the
matches' member sets. -/
theorem addToGroups_sub {h : Heap} {i : Nat} :
    ∀ {gs : List Nat} {m m2 : MatchM}, addToGroups h i gs m = .ok m2 →
      ∀ s2 ∈ m2, ∀ n ∈ s2.nodes, (∃ s ∈ m, n ∈ s.nodes) ∨ n = i := by
  intro gs
  induction gs with
  | nil =>
      intro m m2 ha
      cases ha
      intro s2 hs2 n hn
      exact .inl ⟨s2, hs2, hn⟩
  | cons g gs ih =>
      intro m m2 ha
      simp only [addToGroups] at ha
      cases hg : m.get? g with
      | none => simp only [hg] at ha; cases ha
      | some sub =>
          simp only [hg] at ha
          cases han : sub.addNode h i with
          | error e => simp only [han] at ha; cases ha
          | ok sub2 =>
              simp only [han] at ha
              intro s2 hs2 n hn
              rcases ih ha s2 hs2 n hn with ⟨s3, hs3, hn3⟩ | heq
              · rcases List.mem_or_eq_of_mem_set hs3 with hmem | heq2
                · exact .inl ⟨s3, hmem, hn3⟩
                · subst heq2
                  rw [addNode_nodes_eq han] at hn3
                  rcases insertNode_sub hn3 with h1 | h1
                  · exact .inl ⟨sub, List.get?_mem hg, h1⟩
                  · exact .inr h1
              · exact .inr heq

/-- A branch is inside the tree: its context node and every captured node
satisfy `P`. -/
def BrOk (P : Nat → Prop) (b : Branch) : Prop :=
  P b.node ∧ ∀ s ∈ b.matchS, ∀ n ∈ s.nodes, P n

theorem forkBranches_inv {h : Heap} {b : Branch} {rest : List Instr}
    {P : Nat → Prop} (hbm : ∀ s ∈ b.matchS, ∀ n ∈ s.nodes, P n) :
    ∀ {l : List Nat} {bs : List Branch}, (∀ i ∈ l, P i) →
      forkBranches h b rest l = .ok bs → ∀ b2 ∈ bs, BrOk P b2 := by
  intro l
  induction l with
  | nil =>
      intro bs _ hf
      cases hf
      intro b2 hb2
      cases hb2
  | cons i is ih =>
      intro bs hl hf
      simp only [forkBranches] at hf
      cases hadd : addToGroups h i b.groups b.matchS with
      | error e => simp only [hadd] at hf; cases hf
      | ok m2 =>
          simp only [hadd] at hf
          cases hrec : forkBranches h b rest is with
          | error e => simp only [hrec] at hf; cases hf
          | ok bs2 =>
              simp only [hrec, Except.ok.injEq] at hf
              subst hf
              intro b2 hb2
              rcases List.mem_cons.mp hb2 with rfl | hm
              · refine ⟨hl i (List.mem_cons_self _ _), ?_⟩
                intro s hs n hn
                rcases addToGroups_sub hadd s hs n hn with ⟨s3, hs3, hn3⟩ | heq
                · exact hbm s3 hs3 n hn3
                · subst heq
                  exact hl n (List.mem_cons_self _ _)
              · exact ih (fun x hx => hl x (List.mem_cons_of_mem _ hx)) hrec b2 hm

theorem stepInstr_inv {ev : String → String → Bool} {h : Heap} {root : Nat}
    (wf : WfH h root) {b : Branch} {ins : Instr} {rest : List Instr}
    {bs : List Branch} (hb : BrOk (fun n => n ∈ treeNodes h root) b)
    (hs : stepInstr ev h (h.length + 1) b ins rest = .ok bs) :
    ∀ b2 ∈ bs, BrOk (fun n => n ∈ treeNodes h root) b2 := by
  cases ins with
  | find p =>
      refine forkBranches_inv hb.2 ?_ hs
      intro i hi
      exact relSearch_closed wf b.rel b.node hb.1 i (List.mem_of_mem_filter hi)
  | setRel r =>
      cases hs
      intro b2 hb2
      rcases List.mem_singleton.mp hb2 with rfl
      exact ⟨hb.1, hb.2⟩
  | groupStart n =>
      cases hs
      intro b2 hb2
      rcases List.mem_singleton.mp hb2 with rfl
      refine ⟨hb.1, ?_⟩
      intro s hsm n2 hn2
      rcases List.mem_append.mp hsm with hmem | hmem
      · exact hb.2 s hmem n2 hn2
      · rcases List.mem_singleton.mp hmem with rfl
        cases hn2
  | groupEnd n =>
      simp only [stepInstr] at hs
      by_cases hmem : n ∈ b.groups
      · rw [if_pos hmem] at hs
        cases hs
        intro b2 hb2
        rcases List.mem_singleton.mp hb2 with rfl
        exact ⟨hb.1, hb.2⟩
      · rw [if_neg hmem] at hs
        cases hs
  | sref n =>
      simp only [stepInstr] at hs
      cases hget : b.matchS.get? n with
      | none => simp only [hget] at hs; cases hs
      | some sub =>
          simp only [hget] at hs
          cases hroot : sub.root with
          | none => simp only [hroot] at hs; cases hs
          | some r =>
              simp only [hroot, Except.ok.injEq] at hs
              subst hs
              intro b2 hb2
              rcases List.mem_singleton.mp hb2 with rfl
              exact ⟨hb.1, hb.2⟩

theorem stepBranch_inv {ev : String → String → Bool} {h : Heap} {root : Nat}
    (wf : WfH h root) {b : Branch} {bs : List Branch}
    (hb : BrOk (fun n => n ∈ treeNodes h root) b)
    (hs : stepBranch ev h (h.length + 1) b = .ok bs) :
    ∀ b2 ∈ bs, BrOk (fun n => n ∈ treeNodes h root) b2 := by
  unfold stepBranch at hs
  cases hq : b.instrs with
  | nil =>
      rw [hq] at hs
      cases hs
      intro b2 hb2
      rcases List.mem_singleton.mp hb2 with rfl
      exact hb
  | cons ins rest =>
      rw [hq] at hs
      exact stepInstr_inv wf hb hs

theorem stepRound_inv {ev : String → String → Bool} {h : Heap} {root : Nat}
    (wf : WfH h root) :
    ∀ {bs bs2 : List Branch}, (∀ b ∈ bs, BrOk (fun n => n ∈ treeNodes h root) b) →
      stepRound ev h (h.length + 1) bs = .ok bs2 →
      ∀ b2 ∈ bs2, BrOk (fun n => n ∈ treeNodes h root) b2 := by
  intro bs
  induction bs with
  | nil =>
      intro bs2 _ hs
      cases hs
      intro b2 hb2
      cases hb2
  | cons b rest ih =>
      intro bs2 hw hs
      simp only [stepRound] at hs
      cases hstep : stepBranch ev h (h.length + 1) b with
      | error e => simp only [hstep] at hs; cases hs
      | ok bs1 =>
          simp only [hstep] at hs
          cases hrec : stepRound ev h (h.length + 1) rest with
          | error e => simp only [hrec] at hs; cases hs
          | ok bsr =>
              simp only [hrec, Except.ok.injEq] at hs
              subst hs
              intro b2 hb2
              rcases List.mem_append.mp hb2 with hm | hm
              · exact stepBranch_inv wf (hw b (List.mem_cons_self _ _)) hstep b2 hm
              · exact ih (fun x hx => hw x (List.mem_cons_of_mem _ hx)) hrec b2 hm

theorem runRounds_inv {ev : String → String → Bool} {h : Heap} {root : Nat}
    (wf : WfH h root) :
    ∀ (fuel : Nat) {bs bs2 : List Branch},
      (∀ b ∈ bs, BrOk (fun n => n ∈ treeNodes h root) b) →
      runRounds ev h (h.length + 1) fuel bs = .ok bs2 →
      ∀ b2 ∈ bs2, BrOk (fun n => n ∈ treeNodes h root) b2 := by
  intro fuel
  induction fuel with
  | zero =>
      intro bs bs2 hw hr
      cases hr
      exact hw
  | succ fuel ih =>
      intro bs bs2 hw hr
      simp only [runRounds] at hr
      by_cases hd : allDone bs = true
      · rw [if_pos hd] at hr
        cases hr
        exact hw
      · rw [if_neg hd] at hr
        cases hstep : stepRound ev h (h.length + 1) bs with
        | error e => simp only [hstep] at hr; cases hr
        | ok bsn =>
            simp only [hstep] at hr
            exact ih (stepRound_inv wf hw hstep) hr

/-- Every node captured in any group of any match returned by a search on a
well-formed heap is a node of the tree. -/
theorem searchRun_inv {ev : String → String → Bool} {h : Heap} {root : Nat}
    (wf : WfH h root) {pat : List Instr} {rel : Rel} {ms : List MatchM}
    (hs : searchRun ev h root pat rel = .ok ms) :
    ∀ m ∈ ms, ∀ s ∈ m, ∀ n ∈ s.nodes, n ∈ treeNodes h root := by
  unfold searchRun at hs
  dsimp only at hs
  cases hrun : runRounds ev h (h.length + 1) (wList h (h.length + 1) pat)
      [initBranch root pat rel] with
  | error e => rw [hrun] at hs; cases hs
  | ok bs =>
      rw [hrun] at hs
      simp only [Except.map, Except.ok.injEq] at hs
      subst hs
      have hinit : ∀ b ∈ [initBranch root pat rel],
          BrOk (fun n => n ∈ treeNodes h root) b := by
        intro b hb
        rcases List.mem_singleton.mp hb with rfl
        refine ⟨root_mem_treeNodes h root, ?_⟩
        intro s hsm n hn
        rcases List.mem_singleton.mp hsm with rfl
        cases hn
      have hall := runRounds_inv wf _ hinit hrun
      intro m hm s hsm n hn
      rcases List.mem_map.mp hm with ⟨b, hbm, rfl⟩
      exact (hall b hbm).2 s hsm n hn

theorem group0_sub {m : MatchM} {n : Nat} (hn : n ∈ (group0 m).nodes) :
    ∃ s ∈ m, n ∈ s.nodes := by
  cases m with
  | nil => cases hn
  | cons s0 rest => exact ⟨s0, List.mem_cons_self _ _, hn⟩

/-- A duplicate-free sublist covers the whole (duplicate-free) list exactly
when the lengths agree. -/
theorem length_eq_iff_cover {matched reach : List Nat}
    (hsub : ∀ n ∈ matched, n ∈ reach) (hmn : matched.Nodup)
    (hrn : reach.Nodup) :
    matched.length = reach.length ↔ ∀ i ∈ reach, i ∈ matched := by
  constructor
  · intro hlen i hi
    have hfin : matched.toFinset = reach.toFinset := by
      apply Finset.eq_of_subset_of_card_le
      · intro x hx
        simp only [List.mem_toFinset] at hx ⊢
        exact hsub x hx
      · rw [List.toFinset_card_of_nodup hmn, List.toFinset_card_of_nodup hrn]
        omega
    have : i ∈ matched.toFinset := by
      rw [hfin]
      simp [hi]
    simpa using this
  · intro hcov
    have hfin : matched.toFinset = reach.toFinset := by
      apply Finset.Subset.antisymm
      · intro x hx
        simp only [List.mem_toFinset] at hx ⊢
        exact hsub x hx
      · intro x hx
        simp only [List.mem_toFinset] at hx ⊢
        exact hcov x hx
    have hcard := congrArg Finset.card hfin
    rw [List.toFinset_card_of_nodup hmn, List.toFinset_card_of_nodup hrn] at hcard
    exact hcard

/-- C5 (amended): on a well-formed tree, whenever the anchored search behind
`fullmatch` completes without an error, `fullmatch` returns the (truthy,
non-empty) match list exactly when the union of the matches' whole-capture
node sets covers every node of the tree, and the (falsy) empty list
otherwise.  (The original claim's "never raises" clause fails:
`c5_fullmatch_raises_counterexample`.) -/
theorem c5_fullmatch_coverage_iff (ev : String → String → Bool) (h : Heap)
    (root : Nat) (pat : List Instr) (ms : List MatchM) (wf : WfH h root)
    (hs : matchRun ev h root pat = .ok ms) :
    (fullmatchRun ev h root pat = .ok ms ∧ ms ≠ [] ∧
      ∀ i ∈ treeNodes h root, ∃ m ∈ ms, i ∈ (group0 m).nodes) ∨
    (fullmatchRun ev h root pat = .ok [] ∧
      ¬ ∀ i ∈ treeNodes h root, ∃ m ∈ ms, i ∈ (group0 m).nodes) := by
  have hs2 : searchRun ev h root pat .identic = .ok ms := hs
  have hfull : fullmatchRun ev h root pat =
      .ok (if (((ms.map (fun m => (group0 m).nodes)).flatten).dedup.length =
          (preoF h (h.length + 1) root).length) then ms else []) := by
    unfold fullmatchRun
    rw [hs]
  have hsub : ∀ n ∈ ((ms.map (fun m => (group0 m).nodes)).flatten).dedup,
      n ∈ treeNodes h root := by
    intro n hn
    rw [List.mem_dedup] at hn
    rcases List.mem_flatten.mp hn with ⟨l, hl, hnl⟩
    rcases List.mem_map.mp hl with ⟨m, hm, rfl⟩
    rcases group0_sub hnl with ⟨s, hsm, hns⟩
    exact searchRun_inv wf hs2 m hm s hsm n hns
  by_cases hc : (((ms.map (fun m => (group0 m).nodes)).flatten).dedup.length =
      (preoF h (h.length + 1) root).length)
  · left
    refine ⟨by rw [hfull, if_pos hc], ?_, ?_⟩
    · intro hnil
      subst hnil
      simp only [List.map_nil, List.flatten_nil, List.dedup_nil,
        List.length_nil] at hc
      have hroot := root_mem_treeNodes h root
      have : (treeNodes h root).length ≠ 0 := by
        intro h0
        rw [List.length_eq_zero] at h0
        rw [h0] at hroot
        cases hroot
      exact this hc.symm
    · intro i hi
      have hcov := (length_eq_iff_cover hsub (List.nodup_dedup _)
        (treeNodes_nodup wf)).mp hc i hi
      rw [List.mem_dedup] at hcov
      rcases List.mem_flatten.mp hcov with ⟨l, hl, hil⟩
      rcases List.mem_map.mp hl with ⟨m, hm, rfl⟩
      exact ⟨m, hm, hil⟩
  · right
    refine ⟨by rw [hfull, if_neg hc], ?_⟩
    intro hcov
    apply hc
    apply (length_eq_iff_cover hsub (List.nodup_dedup _)
      (treeNodes_nodup wf)).mpr
    intro i hi
    rcases hcov i hi with ⟨m, hm, hgi⟩
    rw [List.mem_dedup]
    exact List.mem_flatten.mpr ⟨(group0 m).nodes, List.mem_map.mpr ⟨m, hm, rfl⟩, hgi⟩

/-- C5 witness: the tree `a(b c)` is well-formed and the anchored pattern
`a < b, c` matches it; applying the coverage theorem at this input resolves
to the covering case. -/
theorem c5_fullmatch_coverage_iff_witness :
    (fullmatchRun evNone heapABC 0
        [Instr.find (.eqConst "a"), .setRel .child, .find (.eqConst "b"),
         .setRel .nextSib, .find (.eqConst "c")] =
      .ok [[⟨some 0, [0, 1, 2]⟩]] ∧ ([[(⟨some 0, [0, 1, 2]⟩ : Sub)]] : List MatchM) ≠ [] ∧
      ∀ i ∈ treeNodes heapABC 0, ∃ m ∈ ([[(⟨some 0, [0, 1, 2]⟩ : Sub)]] : List MatchM),
        i ∈ (group0 m).nodes) ∨
    (fullmatchRun evNone heapABC 0
        [Instr.find (.eqConst "a"), .setRel .child, .find (.eqConst "b"),
         .setRel .nextSib, .find (.eqConst "c")] =
      .ok [] ∧
      ¬ ∀ i ∈ treeNodes heapABC 0, ∃ m ∈ ([[(⟨some 0, [0, 1, 2]⟩ : Sub)]] : List MatchM),
        i ∈ (group0 m).nodes) :=
  c5_fullmatch_coverage_iff evNone heapABC 0
    [Instr.find (.eqConst "a"), .setRel .child, .find (.eqConst "b"),
     .setRel .nextSib, .find (.eqConst "c")]
    [[⟨some 0, [0, 1, 2]⟩]]
    ⟨by decide, by decide, by decide, by decide, by decide, by decide,
      ⟨fun i => if i = 0 then 0 else 1, by decide, by decide⟩⟩
    rfl

end Treepace
